import Mathlib

/-!
Verification of the m203mylibrary backtesting library against its
natural-language specification.

The development shallowly embeds the Python sources:
* `commodities_blockchain.py` — `Block`, `Blockchain` (hash-chained ledger);
* `commodities_broker.py` — `CommodityPosition`, `CommodityBroker`;
* `commodities_module.py` — `get_futures_expiry`, `CommoditiesInformation`,
  `CommoditiesFirstTwoMoments`;
* `option.py` — Black-Scholes pricing;
* `new_broker.py` — `ExtendedBroker` with option positions.

Machine floats are modelled by `ℚ` where the code only performs field
arithmetic and comparisons, and by `ℝ` where transcendental functions
(`exp`, `log`, the normal CDF) occur.  SHA-256 is modelled by an abstract
digest function `H : String → String` passed as a parameter; claims that
need collision-freeness take injectivity of `H` as a hypothesis.
`time.time()` timestamps are nondeterministic inputs and are passed in as
explicit arguments (already rendered to the string form used for hashing).
-/

namespace BlockchainM

/-- Embeds `Block` from `commodities_blockchain.py`.  The stored `hash`
field is set by `__post_init__` to `calculate_hash`; `timestamp` is the
`str(...)` rendering of the float timestamp, which is all the code ever
uses of it in hashing. -/
structure Block where
  name_backtest : String
  data : String
  previous_hash : String
  timestamp : String
  hash : String
deriving DecidableEq, Repr

/-- `Block.calculate_hash`: digest of `str(timestamp) + name_backtest +
data + previous_hash`. -/
def calculate_hash (H : String → String) (b : Block) : String :=
  H (b.timestamp ++ b.name_backtest ++ b.data ++ b.previous_hash)

/-- Block construction (`Block.__post_init__` sets `hash = calculate_hash`). -/
def mkBlock (H : String → String) (name data prev ts : String) : Block :=
  { name_backtest := name, data := data, previous_hash := prev,
    timestamp := ts,
    hash := H (ts ++ name ++ data ++ prev) }

/-- `Blockchain.create_genesis_block`: `Block('Genesis Block', '', '0')`. -/
def create_genesis_block (H : String → String) (ts : String) : Block :=
  mkBlock H "Genesis Block" "" "0" ts

/-- `Blockchain.add_block(name, data)`: appends a block whose
`previous_hash` is the hash of `chain[-1]`.  In the library the chain is
never empty (the genesis block is appended at construction); on an empty
list we fall back to `""` for the predecessor hash. -/
def add_block (H : String → String) (chain : List Block)
    (name data ts : String) : List Block :=
  chain ++ [mkBlock H name data (((chain.getLast?).map Block.hash).getD "") ts]

/-- A `Blockchain(name)` construction followed by a sequence of
`add_block(name, data)` calls (each entry also carries its timestamp). -/
def buildChain (H : String → String) (ts0 : String)
    (entries : List (String × String × String)) : List Block :=
  entries.foldl (fun c e => add_block H c e.1 e.2.1 e.2.2)
    [create_genesis_block H ts0]

/-- The per-index body of the `Blockchain.is_valid` loop: block `cur`
(at index `i ≥ 1`) passes iff its stored hash recomputes and its
`previous_hash` matches the hash of `prev` (the block at `i-1`). -/
def blockCheck (H : String → String) (prev cur : Block) : Bool :=
  (cur.hash == calculate_hash H cur) && (cur.previous_hash == prev.hash)

/-- `Blockchain.is_valid`: walks the chain from index 1, returning false
at the first failed check. -/
def is_valid (H : String → String) : List Block → Bool
  | [] => true
  | [_] => true
  | a :: b :: rest => blockCheck H a b && is_valid H (b :: rest)

/-- Tampering model: overwrite the `data` field of the block at index `i`
(out-of-range indices leave the chain unchanged). -/
def setData (chain : List Block) (i : Nat) (d : String) : List Block :=
  match chain.get? i with
  | some b => chain.set i { b with data := d }
  | none => chain

/-- Tampering model: overwrite the `previous_hash` field of the block at
index `i`. -/
def setPrevHash (chain : List Block) (i : Nat) (p : String) : List Block :=
  match chain.get? i with
  | some b => chain.set i { b with previous_hash := p }
  | none => chain

/-- A block is hash-consistent when its stored hash recomputes from its
stored fields. -/
def hashConsistent (H : String → String) (b : Block) : Prop :=
  b.hash = calculate_hash H b

theorem mkBlock_hashConsistent (H : String → String) (name data prev ts : String) :
    hashConsistent H (mkBlock H name data prev ts) := rfl

/-- `is_valid` is the pairwise chain condition `blockCheck`. -/
theorem is_valid_eq_chain' (H : String → String) (l : List Block) :
    is_valid H l = true ↔ l.Chain' (fun a b => blockCheck H a b = true) := by
  induction l with
  | nil => simp [is_valid]
  | cons a t ih =>
    cases t with
    | nil => simp [is_valid]
    | cons b r =>
      rw [List.chain'_cons]
      constructor
      · intro h
        have h' := h
        simp only [is_valid, Bool.and_eq_true] at h'
        exact ⟨h'.1, (ih).mp h'.2⟩
      · intro h
        simp only [is_valid, Bool.and_eq_true]
        exact ⟨h.1, (ih).mpr h.2⟩

/-- Every block of an honestly built chain is hash-consistent, and the
chain is nonempty. -/
theorem buildChain_invariant (H : String → String) (ts0 : String)
    (entries : List (String × String × String)) :
    (buildChain H ts0 entries ≠ []) ∧
      ∀ b ∈ buildChain H ts0 entries, hashConsistent H b := by
  unfold buildChain
  generalize hinit : [create_genesis_block H ts0] = init
  have hne : init ≠ [] := by rw [← hinit]; simp
  have hcons : ∀ b ∈ init, hashConsistent H b := by
    rw [← hinit]
    intro b hb
    simp only [List.mem_singleton] at hb
    subst hb
    exact mkBlock_hashConsistent H _ _ _ _
  clear hinit
  induction entries generalizing init with
  | nil => exact ⟨hne, hcons⟩
  | cons e rest ih =>
    simp only [List.foldl_cons]
    apply ih
    · simp [add_block]
    · intro b hb
      simp only [add_block, List.mem_append, List.mem_singleton] at hb
      rcases hb with hb | hb
      · exact hcons b hb
      · subst hb
        exact mkBlock_hashConsistent H _ _ _ _

/-- An honestly built chain passes `is_valid`. -/
theorem buildChain_is_valid (H : String → String) (ts0 : String)
    (entries : List (String × String × String)) :
    is_valid H (buildChain H ts0 entries) = true := by
  rw [is_valid_eq_chain']
  unfold buildChain
  generalize hinit : [create_genesis_block H ts0] = init
  have hchain : init.Chain' (fun a b => blockCheck H a b = true) := by
    rw [← hinit]; simp
  have hne : init ≠ [] := by rw [← hinit]; simp
  clear hinit
  induction entries generalizing init with
  | nil => exact hchain
  | cons e rest ih =>
    simp only [List.foldl_cons]
    apply ih
    · simp only [add_block]
      rw [List.chain'_append]
      refine ⟨hchain, List.chain'_singleton _, ?_⟩
      intro x hx y hy
      simp only [List.head?_cons, Option.mem_def, Option.some.injEq] at hy
      subst hy
      simp only [Option.mem_def] at hx
      simp only [blockCheck, Bool.and_eq_true, beq_iff_eq]
      constructor
      · rfl
      · simp only [mkBlock]
        rw [hx]
        simp
    · simp [add_block]

/-- Altering the `data` field of a block at index `i ≥ 1` of a
hash-consistent valid chain makes `is_valid` return false, provided the
digest function is collision-free (injective). -/
theorem is_valid_setData_eq_false (H : String → String)
    (hinj : Function.Injective H) (l : List Block)
    (hcons : ∀ b ∈ l, hashConsistent H b)
    (i : Nat) (h1 : 1 ≤ i) (h2 : i < l.length) (d' : String)
    (hd : d' ≠ l[i].data) :
    is_valid H (setData l i d') = false := by
  obtain ⟨j, rfl⟩ : ∃ j, i = j + 1 := ⟨i - 1, by omega⟩
  have hget? : l.get? (j + 1) = some l[j + 1] := by
    rw [List.get?_eq_getElem?]
    exact List.getElem?_eq_getElem h2
  have hset : setData l (j + 1) d' = l.set (j + 1) { l[j + 1] with data := d' } := by
    simp only [setData]
    rw [hget?]
  by_contra hfalse
  rw [Bool.not_eq_false] at hfalse
  rw [is_valid_eq_chain', List.chain'_iff_get] at hfalse
  have hlen : (setData l (j + 1) d').length = l.length := by
    rw [hset, List.length_set]
  have hcheck := hfalse j (by omega)
  have hjlt : j < l.length := Nat.lt_of_succ_lt h2
  have hA : (setData l (j + 1) d').get ⟨j, by omega⟩ = l.get ⟨j, hjlt⟩ := by
    have hq : (setData l (j + 1) d')[j]? = some (l.get ⟨j, hjlt⟩) := by
      rw [hset, List.getElem?_set_ne (by omega)]
      exact List.getElem?_eq_getElem hjlt
    have hq2 : (setData l (j + 1) d')[j]?
        = some ((setData l (j + 1) d').get ⟨j, by omega⟩) :=
      List.getElem?_eq_getElem (by omega)
    exact Option.some.inj (hq2.symm.trans hq)
  have hB : (setData l (j + 1) d').get ⟨j + 1, by omega⟩
      = { l[j + 1] with data := d' } := by
    have hq : (setData l (j + 1) d')[j + 1]? = some { l[j + 1] with data := d' } := by
      rw [hset]
      exact List.getElem?_set_self (by simpa using h2)
    have hq2 : (setData l (j + 1) d')[j + 1]?
        = some ((setData l (j + 1) d').get ⟨j + 1, by omega⟩) :=
      List.getElem?_eq_getElem (by omega)
    exact Option.some.inj (hq2.symm.trans hq)
  rw [hA, hB] at hcheck
  simp only [List.get_eq_getElem] at hcheck
  simp only [blockCheck, Bool.and_eq_true, beq_iff_eq] at hcheck
  have horig : l[j + 1].hash = calculate_hash H l[j + 1] :=
    hcons _ (List.getElem_mem h2)
  -- the record update keeps the stored hash but changes the recomputed one
  have hh2 : l[j + 1].hash =
      H (l[j + 1].timestamp ++ l[j + 1].name_backtest ++ d'
          ++ l[j + 1].previous_hash) := hcheck.1
  have hh3 : l[j + 1].hash =
      H (l[j + 1].timestamp ++ l[j + 1].name_backtest ++ l[j + 1].data
          ++ l[j + 1].previous_hash) := horig
  have heq := hinj (hh3.symm.trans hh2)
  -- cancel the common prefix (timestamp ++ name) and suffix (previous_hash)
  have heq' : l[j + 1].data = d' := by
    have h3 := congrArg String.data heq
    simp only [String.data_append] at h3
    have h4 := List.append_cancel_right h3
    have h5 := List.append_cancel_left h4
    exact String.ext h5
  exact hd heq'.symm

/-- Altering the `previous_hash` field of a block at index `i ≥ 1` of a
valid chain makes `is_valid` return false (no collision-freeness needed:
the linkage check `current.previous_hash == previous.hash` fails). -/
theorem is_valid_setPrevHash_eq_false (H : String → String) (l : List Block)
    (hval : is_valid H l = true)
    (i : Nat) (h1 : 1 ≤ i) (h2 : i < l.length) (p' : String)
    (hp : p' ≠ l[i].previous_hash) :
    is_valid H (setPrevHash l i p') = false := by
  obtain ⟨j, rfl⟩ : ∃ j, i = j + 1 := ⟨i - 1, by omega⟩
  have hget? : l.get? (j + 1) = some l[j + 1] := by
    rw [List.get?_eq_getElem?]
    exact List.getElem?_eq_getElem h2
  have hset : setPrevHash l (j + 1) p' =
      l.set (j + 1) { l[j + 1] with previous_hash := p' } := by
    simp only [setPrevHash]
    rw [hget?]
  -- linkage of the original chain at (j, j+1)
  rw [is_valid_eq_chain', List.chain'_iff_get] at hval
  have hlink := hval j (by omega)
  simp only [List.get_eq_getElem] at hlink
  simp only [blockCheck, Bool.and_eq_true, beq_iff_eq] at hlink
  by_contra hfalse
  rw [Bool.not_eq_false] at hfalse
  rw [is_valid_eq_chain', List.chain'_iff_get] at hfalse
  have hlen : (setPrevHash l (j + 1) p').length = l.length := by
    rw [hset, List.length_set]
  have hcheck := hfalse j (by omega)
  have hjlt : j < l.length := Nat.lt_of_succ_lt h2
  have hA : (setPrevHash l (j + 1) p').get ⟨j, by omega⟩ = l.get ⟨j, hjlt⟩ := by
    have hq : (setPrevHash l (j + 1) p')[j]? = some (l.get ⟨j, hjlt⟩) := by
      rw [hset, List.getElem?_set_ne (by omega)]
      exact List.getElem?_eq_getElem hjlt
    have hq2 : (setPrevHash l (j + 1) p')[j]?
        = some ((setPrevHash l (j + 1) p').get ⟨j, by omega⟩) :=
      List.getElem?_eq_getElem (by omega)
    exact Option.some.inj (hq2.symm.trans hq)
  have hB : (setPrevHash l (j + 1) p').get ⟨j + 1, by omega⟩ =
      { l[j + 1] with previous_hash := p' } := by
    have hq : (setPrevHash l (j + 1) p')[j + 1]? =
        some { l[j + 1] with previous_hash := p' } := by
      rw [hset]
      exact List.getElem?_set_self (by simpa using h2)
    have hq2 : (setPrevHash l (j + 1) p')[j + 1]?
        = some ((setPrevHash l (j + 1) p').get ⟨j + 1, by omega⟩) :=
      List.getElem?_eq_getElem (by omega)
    exact Option.some.inj (hq2.symm.trans hq)
  rw [hA, hB] at hcheck
  simp only [List.get_eq_getElem] at hcheck
  simp only [blockCheck, Bool.and_eq_true, beq_iff_eq] at hcheck
  have h5 : p' = l[j].hash := hcheck.2
  rw [← hlink.2] at h5
  exact hp h5

/-- **C1 counterexample.** The claim asserts that altering ANY stored
block's `data` field flips `is_valid` to false.  But `is_valid` walks the
chain from index 1 and never recomputes the genesis block's hash: tampering
with the genesis block's `data` (here from `""` to `"x"`) leaves
`is_valid` true.  This holds for every digest function; it is exhibited at
`H = id`. -/
theorem c1_genesis_tamper_undetected :
    (setData (buildChain id "0.0" []) 0 "x" ≠ buildChain id "0.0" []) ∧
    ((buildChain id "0.0" []).map Block.data = [""]) ∧
    ((setData (buildChain id "0.0" []) 0 "x").map Block.data = ["x"]) ∧
    is_valid id (setData (buildChain id "0.0" []) 0 "x") = true := by
  decide

/-- **C1 (amended).** For every chain built by a `Blockchain` construction
(genesis block) followed by any sequence of `add_block(name, data)` calls,
`is_valid()` returns true and every block's stored hash recomputes from its
stored fields; altering the `data` (for a collision-free digest) or the
`previous_hash` of any block at index `i ≥ 1` to a different value makes
`is_valid()` return false.  (Amendment: detection covers only non-genesis
blocks; tampering with block 0 is not detected, see the counterexample.) -/
theorem blockchain_chain_validity (H : String → String) (ts0 : String)
    (entries : List (String × String × String)) :
    is_valid H (buildChain H ts0 entries) = true ∧
    (∀ b ∈ buildChain H ts0 entries, hashConsistent H b) ∧
    (∀ i d', Function.Injective H → 1 ≤ i →
      ∀ h2 : i < (buildChain H ts0 entries).length,
      d' ≠ ((buildChain H ts0 entries)[i]).data →
      is_valid H (setData (buildChain H ts0 entries) i d') = false) ∧
    (∀ i p', 1 ≤ i → ∀ h2 : i < (buildChain H ts0 entries).length,
      p' ≠ ((buildChain H ts0 entries)[i]).previous_hash →
      is_valid H (setPrevHash (buildChain H ts0 entries) i p') = false) := by
  refine ⟨buildChain_is_valid H ts0 entries,
    (buildChain_invariant H ts0 entries).2, ?_, ?_⟩
  · intro i d' hinj h1 h2 hd
    exact is_valid_setData_eq_false H hinj _
      (buildChain_invariant H ts0 entries).2 i h1 h2 d' hd
  · intro i p' h1 h2 hp
    exact is_valid_setPrevHash_eq_false H _
      (buildChain_is_valid H ts0 entries) i h1 h2 p' hp

/-- Witness for C1's amended theorem at concrete inputs: digest `id`,
one `add_block` call, tampering with block 1. -/
theorem blockchain_chain_validity_witness :
    is_valid id (setData (buildChain id "0.0" [("bt", "payload", "1.0")]) 1 "x")
        = false ∧
    is_valid id (setPrevHash (buildChain id "0.0" [("bt", "payload", "1.0")]) 1 "z")
        = false := by
  constructor
  · exact (blockchain_chain_validity id "0.0" [("bt", "payload", "1.0")]).2.2.1
      1 "x" (fun a b h => h) (by decide) (by decide) (by decide)
  · exact (blockchain_chain_validity id "0.0" [("bt", "payload", "1.0")]).2.2.2
      1 "z" (by decide) (by decide) (by decide)

/-- Embeds `CommodityBroker.initialize_blockchain` from
`commodities_broker.py`.  The on-disk `blockchain/` directory is modelled
as an association list from chain name to stored block list.  When a chain
with the requested name is already persisted, the method logs a warning and
loads it; otherwise it constructs `Blockchain(name)` (a fresh genesis
chain, timestamp `ts`) and persists it. -/
def initialize_blockchain (H : String → String)
    (store : List (String × List Block)) (name ts : String) :
    List Block × List (String × List Block) :=
  match store.lookup name with
  | some c => (c, store)
  | none => ([create_genesis_block H ts], (name, [create_genesis_block H ts]) :: store)

/-- **C6 counterexample.** Initializing a chain under a name that already
persists does NOT fail: `initialize_blockchain` (which has no "load
existing" flag at all) silently loads and returns the old chain.  Here the
old chain (timestamps `"0.0"`) is returned unchanged — not the fresh
genesis chain that timestamp `"9.9"` would produce. -/
theorem c6_duplicate_name_silently_loads :
    initialize_blockchain id [("run1", buildChain id "0.0" [])] "run1" "9.9"
        = (buildChain id "0.0" [], [("run1", buildChain id "0.0" [])]) ∧
    (initialize_blockchain id [("run1", buildChain id "0.0" [])] "run1" "9.9").1
        ≠ [create_genesis_block id "9.9"] := by
  decide

/-- **C6 (amended).** `initialize_blockchain(name)` never raises a
duplicate-ledger error and takes no "load existing" flag: when a chain
with that name already persists it unconditionally loads and returns the
existing chain (logging a warning), and only when none persists does it
create, store and return a fresh genesis chain. -/
theorem initialize_blockchain_spec (H : String → String)
    (store : List (String × List Block)) (name ts : String) :
    (∀ c, store.lookup name = some c →
      initialize_blockchain H store name ts = (c, store)) ∧
    (store.lookup name = none →
      initialize_blockchain H store name ts =
        ([create_genesis_block H ts],
          (name, [create_genesis_block H ts]) :: store)) := by
  constructor
  · intro c hc
    simp [initialize_blockchain, hc]
  · intro hc
    simp [initialize_blockchain, hc]

/-- Witness for C6's amended theorem: both branches at concrete stores. -/
theorem initialize_blockchain_spec_witness :
    initialize_blockchain id [("a", buildChain id "0.0" [])] "a" "1.0"
        = (buildChain id "0.0" [], [("a", buildChain id "0.0" [])]) ∧
    initialize_blockchain id [] "b" "2.0"
        = ([create_genesis_block id "2.0"],
            [("b", [create_genesis_block id "2.0"])]) := by
  constructor
  · exact (initialize_blockchain_spec id
      [("a", buildChain id "0.0" [])] "a" "1.0").1 _ (by decide)
  · exact (initialize_blockchain_spec id [] "b" "2.0").2 (by decide)

end BlockchainM

namespace CommoditiesModule

/-!
Embedding of `get_futures_expiry` from
`src/m203mylibrary/commodities_module.py`.  Python `datetime` dates are
modelled as proleptic Gregorian year/month/day triples; `strptime` parsing
of the `'YYYY-MM-DD'` argument is I/O and is modelled by passing the parsed
triple directly (a malformed string would only hit the same
`except`-clause as the unsupported-ticker branch).  `pandas.tseries.offsets.BDay(n)`
subtraction is modelled by `subBDays`: `n` iterations of "previous day,
then skip back over the weekend", which agrees with pandas business-day
subtraction.  `strftime('%Y-%m-%d')` is `fmtDate`.
-/

structure Date where
  year : Nat
  month : Nat
  day : Nat
deriving DecidableEq, Repr

/-- Gregorian leap year rule (as in Python's `calendar`/`datetime`). -/
def isLeap (y : Nat) : Bool :=
  (y % 4 == 0 && y % 100 != 0) || (y % 400 == 0)

def daysInMonth (y m : Nat) : Nat :=
  if m == 2 then (if isLeap y then 29 else 28)
  else if m == 4 || m == 6 || m == 9 || m == 11 then 30
  else 31

def daysBeforeMonth (y : Nat) : Nat → Nat
  | 0 => 0
  | 1 => 0
  | m + 1 => daysBeforeMonth y m + daysInMonth y m

/-- Day count of a date in the proleptic Gregorian calendar
(0001-01-01 ↦ 0; that date is a Monday). -/
def daysFromCivil (d : Date) : Nat :=
  let y := d.year - 1
  365 * y + y / 4 - y / 100 + y / 400 + daysBeforeMonth d.year d.month + (d.day - 1)

/-- Weekday with Monday = 0, …, Sunday = 6. -/
def weekday (d : Date) : Nat := daysFromCivil d % 7

def isWeekend (d : Date) : Bool := weekday d == 5 || weekday d == 6

def dateLE (a b : Date) : Bool := Nat.ble (daysFromCivil a) (daysFromCivil b)

def dateLT (a b : Date) : Bool := Nat.blt (daysFromCivil a) (daysFromCivil b)

def prevDay (d : Date) : Date :=
  if d.day > 1 then ⟨d.year, d.month, d.day - 1⟩
  else if d.month > 1 then ⟨d.year, d.month - 1, daysInMonth d.year (d.month - 1)⟩
  else ⟨d.year - 1, 12, 31⟩

/-- Move back to the previous business day if `d` falls on a weekend
(a weekend is at most two consecutive days). -/
def rollBackWeekend (d : Date) : Date :=
  if isWeekend d then
    (if isWeekend (prevDay d) then prevDay (prevDay d) else prevDay d)
  else d

/-- `date - BDay(n)` (pandas business-day offset subtraction). -/
def subBDays (n : Nat) (d : Date) : Date :=
  match n with
  | 0 => d
  | k + 1 => subBDays k (rollBackWeekend (prevDay d))

def pad2 (n : Nat) : String := if n < 10 then "0" ++ toString n else toString n

/-- `strftime('%Y-%m-%d')` (years in the library's range are 4 digits). -/
def fmtDate (d : Date) : String :=
  toString d.year ++ "-" ++ pad2 d.month ++ "-" ++ pad2 d.day

/-- The CBOT contract-month table of `get_futures_expiry`. -/
def cbot_contract_months : List (String × List Nat) :=
  [("ZS=F", [1, 3, 5, 7, 8, 9, 11]),
   ("ZW=F", [3, 5, 7, 9, 12]),
   ("ZC=F", [3, 5, 7, 9, 12]),
   ("CC=F", [3, 5, 7, 9, 12])]

/-- The CBOT front-month resolution (`for … else` loop): the first listed
month `≥` the purchase month in the current year, else the first listed
month of the next year.  Returns `(year, front_month)`. -/
def cbotFrontMonth (months : List Nat) (buy : Date) : Nat × Nat :=
  match months.find? (fun cm => buy.month ≤ cm) with
  | some fm => (buy.year, fm)
  | none => (buy.year + 1, months.headD 0)

/-- Advancing to the next listed contract month (the rollover branch):
`contract_months.index(front_month) + 1`, wrapping to the first month of
the next year past the end of the list. -/
def cbotAdvance (months : List Nat) (year fm : Nat) : Nat × Nat :=
  let ni := months.findIdx (fun x => x == fm) + 1
  if months.length ≤ ni then (year + 1, months.headD 0)
  else (year, months.getD ni 0)

/-- The CBOT branch of `get_futures_expiry`: expiry is the business day
before the 15th of the front month, advanced to the next listed contract
when the buy date is on or after the 20-business-day rollover date. -/
def cbotExpiry (months : List Nat) (buy : Date) : Date :=
  let yfm := cbotFrontMonth months buy
  let expiry := subBDays 1 ⟨yfm.1, yfm.2, 15⟩
  let rollover := subBDays 20 expiry
  if dateLE rollover buy then
    let yfm2 := cbotAdvance months yfm.1 yfm.2
    subBDays 1 ⟨yfm2.1, yfm2.2, 15⟩
  else expiry

/-- The per-ticker expiry rule of the energy branch, for delivery month
`dm` of year `year`. -/
def energyExpiry (ticker : String) (year dm : Nat) : Date :=
  if ticker == "CL=F" then
    subBDays 3 ⟨if 1 < dm then year else year - 1, if 1 < dm then dm - 1 else 12, 25⟩
  else if ticker == "BZ=F" then subBDays 2 ⟨year, dm, 1⟩
  else if ticker == "NG=F" then subBDays 3 ⟨year, dm, 1⟩
  else subBDays 1 ⟨if 1 < dm then year else year - 1, if 1 < dm then dm - 1 else 12, 1⟩

/-- The error string built by the function's own `except Exception` handler
from the `ValueError` it raises on an unsupported ticker. -/
def unsupportedMessage (ticker : String) : String :=
  "Error calculating expiry date: Unsupported ticker: " ++ ticker ++
    ". Supported tickers are: CL=F, BZ=F, NG=F, HO=F, ZS=F, ZW=F, ZC=F, CC=F."

/-- Embeds `get_futures_expiry(buy_date, ticker)`.  Returns the formatted
expiry date string for supported tickers; for any other ticker the raised
`ValueError` is caught by the function's own `except` clause and the error
message string is returned as an ordinary value. -/
def get_futures_expiry (buy : Date) (ticker : String) : String :=
  match cbot_contract_months.lookup ticker with
  | some months => fmtDate (cbotExpiry months buy)
  | none =>
    if ["CL=F", "BZ=F", "NG=F", "HO=F"].contains ticker then
      let dm := buy.month % 12 + 1
      let yr := buy.year + (if dm == 1 then 1 else 0)
      let pe := energyExpiry ticker yr dm
      let pe2 :=
        if dateLT pe buy then
          let dm2 := dm % 12 + 1
          let yr2 := yr + (if dm2 == 1 then 1 else 0)
          energyExpiry ticker yr2 dm2
        else pe
      fmtDate pe2
    else unsupportedMessage ticker

set_option maxRecDepth 40000 in
/-- **C5 (confirmed).** `get_futures_expiry("2024-12-15", "ZS=F")` (CBOT
soybeans, contract months [1,3,5,7,8,9,11]): no listed month is ≥ 12, so
the front month wraps to January 2025; the expiry is the business day
before 2025-01-15 (a Wednesday), i.e. 2025-01-14; and the 20-business-day
rollover window (which starts 2024-12-17) does not advance the contract
for this buy date. -/
theorem get_futures_expiry_soybean_dec15 :
    cbotFrontMonth [1, 3, 5, 7, 8, 9, 11] ⟨2024, 12, 15⟩ = (2025, 1) ∧
    subBDays 1 ⟨2025, 1, 15⟩ = ⟨2025, 1, 14⟩ ∧
    dateLE (subBDays 20 (subBDays 1 ⟨2025, 1, 15⟩)) ⟨2024, 12, 15⟩ = false ∧
    get_futures_expiry ⟨2024, 12, 15⟩ "ZS=F" = "2025-01-14" := by
  decide

/-- The supported ticker set of `get_futures_expiry`. -/
def supportedTickers : List String :=
  ["CL=F", "BZ=F", "NG=F", "HO=F", "ZS=F", "ZW=F", "ZC=F", "CC=F"]

/-- **C7 counterexample.** On an unsupported ticker `get_futures_expiry`
does NOT let the error propagate to the caller: the `ValueError` it raises
is swallowed by the function's own `except Exception` clause, and an
ordinary string value — the error message — is returned. -/
theorem c7_unsupported_returns_ordinary_value :
    get_futures_expiry ⟨2024, 1, 1⟩ "GC=F" =
      "Error calculating expiry date: Unsupported ticker: GC=F. Supported tickers are: CL=F, BZ=F, NG=F, HO=F, ZS=F, ZW=F, ZC=F, CC=F." := by
  decide

/-- **C7 (amended).** For every buy date and every ticker outside the
supported set, `get_futures_expiry` catches its own `ValueError` and
returns the `"Error calculating expiry date: Unsupported ticker: …"`
message string as an ordinary return value; no exception reaches the
caller. -/
theorem get_futures_expiry_unsupported (buy : Date) (ticker : String)
    (h : ticker ∉ supportedTickers) :
    get_futures_expiry buy ticker = unsupportedMessage ticker := by
  simp only [supportedTickers, List.mem_cons, List.not_mem_nil, or_false, not_or] at h
  obtain ⟨h1, h2, h3, h4, h5, h6, h7, h8⟩ := h
  have e1 : (ticker == "CL=F") = false := beq_eq_false_iff_ne.mpr h1
  have e2 : (ticker == "BZ=F") = false := beq_eq_false_iff_ne.mpr h2
  have e3 : (ticker == "NG=F") = false := beq_eq_false_iff_ne.mpr h3
  have e4 : (ticker == "HO=F") = false := beq_eq_false_iff_ne.mpr h4
  have e5 : (ticker == "ZS=F") = false := beq_eq_false_iff_ne.mpr h5
  have e6 : (ticker == "ZW=F") = false := beq_eq_false_iff_ne.mpr h6
  have e7 : (ticker == "ZC=F") = false := beq_eq_false_iff_ne.mpr h7
  have e8 : (ticker == "CC=F") = false := beq_eq_false_iff_ne.mpr h8
  have f1 : ("CL=F" == ticker) = false := beq_eq_false_iff_ne.mpr (Ne.symm h1)
  have f2 : ("BZ=F" == ticker) = false := beq_eq_false_iff_ne.mpr (Ne.symm h2)
  have f3 : ("NG=F" == ticker) = false := beq_eq_false_iff_ne.mpr (Ne.symm h3)
  have f4 : ("HO=F" == ticker) = false := beq_eq_false_iff_ne.mpr (Ne.symm h4)
  simp [get_futures_expiry, cbot_contract_months, List.lookup, List.contains,
    e1, e2, e3, e4, e5, e6, e7, e8, f1, f2, f3, f4]
  intro hc
  rcases hc with hc | hc | hc | hc <;> simp_all

/-- Witness for C7's amended theorem at a concrete unsupported ticker. -/
theorem get_futures_expiry_unsupported_witness :
    get_futures_expiry ⟨2023, 6, 2⟩ "SI=F" = unsupportedMessage "SI=F" :=
  get_futures_expiry_unsupported ⟨2023, 6, 2⟩ "SI=F" (by decide)

/-!
Embedding of `CommoditiesInformation` (`slice_data`, `get_prices`) and
`CommoditiesFirstTwoMoments.compute_portfolio` from
`src/m203mylibrary/commodities_module.py`.  A DataFrame row carries the
time column (`'Date'`, modelled at day granularity as `ℤ`), the ticker,
the close price, and the `'futures expiry'` column (modelled as `ℤ`;
equities would carry a far-future sentinel).  The per-ticker dict produced
by `get_prices` is modelled as the partial map `String → Option ℚ`.
-/

structure PriceRow where
  date : ℤ
  ticker : String
  close : ℚ
  expiry : ℤ
deriving DecidableEq, Repr

/-- `CommoditiesInformation.slice_data(t)`: rows with
`t - s <= Date < t` (window size `s`). -/
def slice_data (s : ℤ) (rows : List PriceRow) (t : ℤ) : List PriceRow :=
  rows.filter (fun r => decide (t - s ≤ r.date) && decide (r.date < t))

/-- `CommoditiesInformation.get_prices(t)`: groups the slice by ticker and
takes the last row's close per ticker (`groupby(...)['Close'].last()`);
a ticker with no row in the slice is absent from the dict. -/
def get_prices (s : ℤ) (rows : List PriceRow) (t : ℤ) (c : String) : Option ℚ :=
  (((slice_data s rows t).filter (fun r => r.ticker == c)).getLast?).map (fun r => r.close)

/-- **C3 counterexample.** A row whose `futures expiry` (5) is far before
the query time `t = 1000` still supplies the reported price: `get_prices`
never consults the expiry column.  The claim's "no row with expiry date
earlier than t contributes the reported price" is false on the code. -/
theorem c3_expired_row_contributes :
    get_prices 360 [⟨999, "A", 5, 5⟩] 1000 "A" = some 5 ∧ (5 : ℤ) < 1000 := by
  decide

/-- **C3 (amended).** For every query time `t`, `get_prices(t)` returns,
per instrument, the close price of that instrument's latest row strictly
before `t` within the trailing window `[t−s, t)`; the expiry column is
ignored entirely — rewriting every row's expiry arbitrarily never changes
the result, and every reported price comes from a row of the data lying in
the window (but possibly expired). -/
theorem get_prices_window_and_expiry_blind (s : ℤ) (rows : List PriceRow)
    (t : ℤ) (c : String) (f : PriceRow → ℤ) :
    get_prices s (rows.map (fun r => { r with expiry := f r })) t c =
      get_prices s rows t c ∧
    (∀ p, get_prices s rows t c = some p →
      ∃ r ∈ rows, r.ticker = c ∧ r.close = p ∧ t - s ≤ r.date ∧ r.date < t) := by
  constructor
  · unfold get_prices slice_data
    rw [List.filter_map]
    have e1 : ((fun r => decide (t - s ≤ r.date) && decide (r.date < t)) ∘
        (fun (r : PriceRow) => { r with expiry := f r })) =
        (fun r => decide (t - s ≤ r.date) && decide (r.date < t)) :=
      funext fun r => rfl
    rw [e1, List.filter_map]
    have e2 : ((fun r => r.ticker == c) ∘
        (fun (r : PriceRow) => { r with expiry := f r })) =
        (fun r => r.ticker == c) :=
      funext fun r => rfl
    have e3 : ((fun r : PriceRow => r.close) ∘
        (fun (r : PriceRow) => { r with expiry := f r })) =
        (fun r : PriceRow => r.close) :=
      funext fun r => rfl
    rw [e2, ← List.getLast?_map, ← List.getLast?_map, List.map_map, e3]
  · intro p hp
    unfold get_prices at hp
    cases hlast : ((slice_data s rows t).filter (fun r => r.ticker == c)).getLast? with
    | none => rw [hlast] at hp; exact absurd hp (by simp)
    | some r =>
      rw [hlast] at hp
      have hp2 : some r.close = some p := hp
      have hp3 : r.close = p := Option.some.inj hp2
      have hmem : r ∈ (slice_data s rows t).filter (fun r => r.ticker == c) := by
        obtain ⟨hne, heq⟩ := List.mem_getLast?_eq_getLast (Option.mem_def.mpr hlast)
        rw [heq]
        exact List.getLast_mem hne
      rw [List.mem_filter] at hmem
      obtain ⟨hmem2, htick⟩ := hmem
      unfold slice_data at hmem2
      rw [List.mem_filter] at hmem2
      obtain ⟨hmem3, hwin⟩ := hmem2
      simp only [Bool.and_eq_true, decide_eq_true_eq] at hwin
      exact ⟨r, hmem3, by simpa using htick, hp3, hwin.1, hwin.2⟩

/-- Witness for C3's amended theorem: concrete data with two rows of the
same ticker, the later one expired; its close is still the reported
price, and zeroing all expiries changes nothing. -/
theorem get_prices_window_and_expiry_blind_witness :
    (get_prices 360 [⟨998, "A", 3, 2000⟩, ⟨999, "A", 5, 5⟩]
        1000 "A" = some 5) ∧
    ∃ r ∈ [(⟨998, "A", 3, 2000⟩ : PriceRow), ⟨999, "A", 5, 5⟩],
      r.ticker = "A" ∧ r.close = 5 ∧ 1000 - 360 ≤ r.date ∧ r.date < 1000 := by
  refine ⟨by decide, ?_⟩
  exact (get_prices_window_and_expiry_blind 360
    [⟨998, "A", 3, 2000⟩, ⟨999, "A", 5, 5⟩] 1000 "A" (fun _ => 0)).2 5 (by decide)

/-- The information set assembled by
`CommoditiesFirstTwoMoments.compute_information`. -/
structure InformationSet where
  expected_return : List ℚ
  covariance_matrix : List (List ℚ)
  companies : List String

/-- Outcome of the `scipy.optimize.minimize` call (an external solver):
convergence flag `success` and solution vector `x`. -/
structure OptResult where
  success : Bool
  x : List ℚ

/-- The equal-weight fallback dictionary of `compute_portfolio`'s
`except` clause: `{}` for zero instruments, else `{k: 1.0/n}`. -/
def equalWeightPortfolio (companies : List String) : List (String × ℚ) :=
  if companies.length = 0 then []
  else companies.map (fun k => (k, 1 / (companies.length : ℚ)))

/-- Embeds `CommoditiesFirstTwoMoments.compute_portfolio(t, information_set)`.
The solver outcome is passed in as `res`.  On `res.success` the weights
`res.x` are assigned to the companies; otherwise the raised
`"Optimization did not converge"` exception (or any other numerical
failure inside the `try`) lands in the `except` clause, which logs a
warning and returns the equal-weight portfolio.  The function is total:
no exception escapes. -/
def compute_portfolio (t : ℤ) (res : OptResult) (info : InformationSet) :
    List (String × ℚ) :=
  if res.success then info.companies.zip res.x
  else equalWeightPortfolio info.companies

/-- **C2 (confirmed).** Whenever the optimization does not converge (for
any `t` and any information set), `compute_portfolio` returns exactly the
equal-weight portfolio: the instruments are `information_set['companies']`
in order, each with weight `1/n`; with zero instruments it returns the
empty dict.  (No exception propagates: the embedding of the
`try`/`except` structure is a total function whose failure branch is the
fallback.) -/
theorem compute_portfolio_fallback (t : ℤ) (res : OptResult)
    (info : InformationSet) (h : res.success = false) :
    compute_portfolio t res info = equalWeightPortfolio info.companies ∧
    (info.companies = [] → compute_portfolio t res info = []) ∧
    ((compute_portfolio t res info).map Prod.fst = info.companies) ∧
    (∀ kw ∈ compute_portfolio t res info,
      kw.2 = 1 / (info.companies.length : ℚ)) := by
  have h1 : compute_portfolio t res info = equalWeightPortfolio info.companies := by
    simp [compute_portfolio, h]
  refine ⟨h1, ?_, ?_, ?_⟩
  · intro hc
    rw [h1, hc]
    rfl
  · rw [h1]
    unfold equalWeightPortfolio
    by_cases hc : info.companies.length = 0
    · rw [if_pos hc]
      rw [List.length_eq_zero] at hc
      rw [hc]
      rfl
    · rw [if_neg hc, List.map_map]
      have e : (Prod.fst ∘ fun k : String => (k, 1 / (info.companies.length : ℚ))) =
          (id : String → String) :=
        funext fun k => rfl
      rw [e, List.map_id]
  · rw [h1]
    unfold equalWeightPortfolio
    intro kw hkw
    by_cases hc : info.companies.length = 0
    · rw [if_pos hc] at hkw
      exact absurd hkw (by simp)
    · rw [if_neg hc] at hkw
      rw [List.mem_map] at hkw
      obtain ⟨k, _, hk⟩ := hkw
      rw [← hk]

/-- Witness for C2 at a concrete failed optimization with two
instruments. -/
theorem compute_portfolio_fallback_witness :
    compute_portfolio 0 ⟨false, []⟩ ⟨[], [], ["A", "B"]⟩ =
      equalWeightPortfolio ["A", "B"] ∧
    equalWeightPortfolio ["A", "B"] = [("A", 1/2), ("B", 1/2)] :=
  ⟨(compute_portfolio_fallback 0 ⟨false, []⟩ ⟨[], [], ["A", "B"]⟩ rfl).1,
    by norm_num [equalWeightPortfolio]⟩

end CommoditiesModule

namespace CommodityBrokerM

/-!
Embedding of `CommodityPosition` and `CommodityBroker` from
`commodities_broker.py`.  Python's insertion-ordered dict of positions is
an association list with unique keys: updating an existing key rewrites
its entry in place, inserting a new key appends at the end, `del` removes
the entry.  Monetary amounts and prices are `ℚ`, quantities `ℤ` (Python
`int`).  `transaction_log` and `entry_prices` are write-only with respect
to the trading logic (never read back by `buy`/`sell`/`get_portfolio_value`/
`execute_portfolio`) and are omitted.  `int(x)` is truncation toward
zero (`truncQ`).  In Python, `buy` on an existing position whose combined
quantity is zero divides by zero; in `ℚ` that division yields `0` — the
scenario is outside every theorem below. -/

structure CommodityPosition where
  ticker : String
  quantity : ℤ
  entry_price : ℚ
  expiry_date : Option String := none
deriving DecidableEq, Repr

structure CommodityBroker where
  cash : ℚ
  positions : List (String × CommodityPosition)
deriving DecidableEq, Repr

/-- Python `int(x)` for a float/ratio: truncation toward zero. -/
def truncQ (x : ℚ) : ℤ := if 0 ≤ x then ⌊x⌋ else ⌈x⌉

/-- Dict update of an existing key (in-place mutation of
`self.positions[ticker]`). -/
def setPos {β : Type} (ps : List (String × β)) (t : String)
    (p : β) : List (String × β) :=
  ps.map (fun kv => if kv.1 = t then (t, p) else kv)

/-- `del self.positions[ticker]`. -/
def delPos {β : Type} (ps : List (String × β)) (t : String) :
    List (String × β) :=
  ps.filter (fun kv => !(kv.1 == t))

/-- Python truthiness of the `expiry_date` argument (`if expiry_date:`):
false for `None` and for the empty string. -/
def expiryTruthy : Option String → Bool
  | none => false
  | some s => !(s == "")

/-- `CommodityBroker.buy(ticker, quantity, price, date, expiry_date)`.
If cash covers `price * quantity`, debits cash and creates or
weighted-averages the position (updating `expiry_date` only when the
argument is truthy); otherwise logs and leaves the state unchanged. -/
def buy (b : CommodityBroker) (ticker : String) (quantity : ℤ) (price : ℚ)
    (expiry_date : Option String) : CommodityBroker :=
  let total_cost := price * quantity
  if total_cost ≤ b.cash then
    let cash' := b.cash - total_cost
    match b.positions.lookup ticker with
    | some position =>
      let new_quantity := position.quantity + quantity
      let new_entry_price :=
        ((position.entry_price * position.quantity) + (price * quantity)) / new_quantity
      let pos' : CommodityPosition :=
        { position with
            quantity := new_quantity,
            entry_price := new_entry_price,
            expiry_date :=
              if expiryTruthy expiry_date then expiry_date else position.expiry_date }
      { cash := cash', positions := setPos b.positions ticker pos' }
    | none =>
      { cash := cash',
        positions := b.positions ++ [(ticker, ⟨ticker, quantity, price, expiry_date⟩)] }
  else b

/-- `CommodityBroker.sell(ticker, quantity, price, date)`.  If the ticker
is held with at least `quantity`, decrements it, credits cash, and deletes
the position when the remaining quantity is zero; otherwise logs and
leaves the state unchanged. -/
def sell (b : CommodityBroker) (ticker : String) (quantity : ℤ) (price : ℚ) :
    CommodityBroker :=
  match b.positions.lookup ticker with
  | some position =>
    if quantity ≤ position.quantity then
      let pos' := { position with quantity := position.quantity - quantity }
      let cash' := b.cash + price * quantity
      if pos'.quantity = 0 then
        { cash := cash', positions := delPos b.positions ticker }
      else
        { cash := cash', positions := setPos b.positions ticker pos' }
    else b
  | none => b

/-- The `prices`/`market_prices` dict: keys may be absent or bound to
`None` (`Option ℚ` values); `priceOf` is the combined
`tkr in market_prices and market_prices[tkr] is not None` access. -/
def priceOf (prices : List (String × Option ℚ)) (t : String) : Option ℚ :=
  match prices.lookup t with
  | some (some p) => some p
  | _ => none

/-- `CommodityBroker.get_portfolio_value(market_prices)`: cash plus
quantity × price over the positions that have a quoted (non-`None`)
price; unquoted positions contribute nothing. -/
def get_portfolio_value (b : CommodityBroker)
    (prices : List (String × Option ℚ)) : ℚ :=
  b.cash + (b.positions.map (fun kv =>
    match priceOf prices kv.1 with
    | some p => (kv.2.quantity : ℚ) * p
    | none => 0)).sum

/-- The per-ticker trade quantity computed in both passes of
`execute_portfolio`: `int((total*weight - held*price) / price)`. -/
def tradeQty (b : CommodityBroker) (prices : List (String × Option ℚ))
    (t : String) (weight : ℚ) (price : ℚ) : ℤ :=
  let total_value := get_portfolio_value b prices
  let target_value := total_value * weight
  let current_value :=
    ((match b.positions.lookup t with
      | some p => p.quantity
      | none => 0 : ℤ) : ℚ) * price
  truncQ ((target_value - current_value) / price)

/-- The first (sell) pass of `execute_portfolio`. -/
def sellPass (b : CommodityBroker) (portfolio : List (String × ℚ))
    (prices : List (String × Option ℚ)) : CommodityBroker :=
  portfolio.foldl (fun b kw =>
    match priceOf prices kw.1 with
    | none => b
    | some price =>
      let q := tradeQty b prices kw.1 kw.2 price
      if q < 0 then sell b kw.1 (|q|) price else b) b

/-- The second (buy) pass of `execute_portfolio`: full buy when cash
covers the cost, otherwise a partial buy of `int(available_cash/price)`
units; every buy is issued with `expiry_date=None`. -/
def buyPass (b : CommodityBroker) (portfolio : List (String × ℚ))
    (prices : List (String × Option ℚ)) : CommodityBroker :=
  portfolio.foldl (fun b kw =>
    match priceOf prices kw.1 with
    | none => b
    | some price =>
      let q := tradeQty b prices kw.1 kw.2 price
      if 0 < q then
        let available_cash := b.cash
        let cost := (q : ℚ) * price
        if cost ≤ available_cash then buy b kw.1 q price none
        else buy b kw.1 (truncQ (available_cash / price)) price none
      else b) b

/-- `CommodityBroker.execute_portfolio(portfolio, prices, date)`:
sells first, then buys. -/
def execute_portfolio (b : CommodityBroker) (portfolio : List (String × ℚ))
    (prices : List (String × Option ℚ)) : CommodityBroker :=
  buyPass (sellPass b portfolio prices) portfolio prices

/-- A broker operation (the date argument only feeds the transaction log
and is omitted). -/
inductive Op where
  | buy (ticker : String) (quantity : ℤ) (price : ℚ) (expiry : Option String)
  | sell (ticker : String) (quantity : ℤ) (price : ℚ)
  | exec (portfolio : List (String × ℚ)) (prices : List (String × Option ℚ))

def applyOp (b : CommodityBroker) : Op → CommodityBroker
  | Op.buy t q p e => buy b t q p e
  | Op.sell t q p => sell b t q p
  | Op.exec pf pr => execute_portfolio b pf pr

def runOps (b : CommodityBroker) (ops : List Op) : CommodityBroker :=
  ops.foldl applyOp b

theorem lookup_setPos_self {β : Type} (ps : List (String × β)) (t : String)
    (p q0 : β) (h : ps.lookup t = some q0) :
    (setPos ps t p).lookup t = some p := by
  induction ps with
  | nil => simp [List.lookup] at h
  | cons kv rest ih =>
    have hstep : setPos (kv :: rest) t p =
        (if kv.1 = t then (t, p) else kv) :: setPos rest t p := rfl
    rw [hstep]
    by_cases hk : kv.1 = t
    · rw [if_pos hk]
      simp [List.lookup]
    · rw [if_neg hk]
      have hb : (t == kv.1) = false := beq_eq_false_iff_ne.mpr (fun he => hk he.symm)
      simp only [List.lookup, hb] at h ⊢
      exact ih h

theorem lookup_setPos_ne {β : Type} (ps : List (String × β)) (t t' : String)
    (p : β) (hne : t' ≠ t) :
    (setPos ps t p).lookup t' = ps.lookup t' := by
  induction ps with
  | nil => rfl
  | cons kv rest ih =>
    have hstep : setPos (kv :: rest) t p =
        (if kv.1 = t then (t, p) else kv) :: setPos rest t p := rfl
    rw [hstep]
    by_cases hk : kv.1 = t
    · rw [if_pos hk]
      have hb1 : (t' == t) = false := beq_eq_false_iff_ne.mpr hne
      have hb2 : (t' == kv.1) = false := by rw [hk]; exact hb1
      simp only [List.lookup, hb1, hb2]
      exact ih
    · rw [if_neg hk]
      simp only [List.lookup]
      cases hkk : (t' == kv.1) with
      | true => rfl
      | false => exact ih

theorem setPos_of_lookup_none {β : Type} (ps : List (String × β)) (t : String)
    (p : β) (h : ps.lookup t = none) :
    setPos ps t p = ps := by
  induction ps with
  | nil => rfl
  | cons kv rest ih =>
    simp only [List.lookup] at h
    cases hkk : (t == kv.1) with
    | true => rw [hkk] at h; exact absurd h (by simp)
    | false =>
      rw [hkk] at h
      have hk : kv.1 ≠ t := fun he => (beq_eq_false_iff_ne.mp hkk) he.symm
      have hstep : setPos (kv :: rest) t p =
          (if kv.1 = t then (t, p) else kv) :: setPos rest t p := rfl
      rw [hstep, if_neg hk, ih h]

theorem delPos_of_lookup_none {β : Type} (ps : List (String × β)) (t : String)
    (h : ps.lookup t = none) : delPos ps t = ps := by
  induction ps with
  | nil => rfl
  | cons kv rest ih =>
    simp only [List.lookup] at h
    cases hkk : (t == kv.1) with
    | true => rw [hkk] at h; exact absurd h (by simp)
    | false =>
      rw [hkk] at h
      have hb : (kv.1 == t) = false :=
        beq_eq_false_iff_ne.mpr (fun he => (beq_eq_false_iff_ne.mp hkk) he.symm)
      have hstep : delPos (kv :: rest) t = kv :: delPos rest t := by
        simp only [delPos, List.filter, hb, Bool.not_false]
      rw [hstep, ih h]

theorem lookup_delPos_self {β : Type} (ps : List (String × β)) (t : String) :
    (delPos ps t).lookup t = none := by
  induction ps with
  | nil => rfl
  | cons kv rest ih =>
    by_cases hk : kv.1 = t
    · have hb : (kv.1 == t) = true := beq_iff_eq.mpr hk
      simp only [delPos, List.filter, hb, Bool.not_true] at ih ⊢
      exact ih
    · have hb : (kv.1 == t) = false := beq_eq_false_iff_ne.mpr hk
      have hb2 : (t == kv.1) = false := beq_eq_false_iff_ne.mpr (fun he => hk he.symm)
      simp only [delPos, List.filter, hb, Bool.not_false, List.lookup, hb2] at ih ⊢
      exact ih

theorem lookup_delPos_ne {β : Type} (ps : List (String × β)) (t t' : String)
    (hne : t' ≠ t) :
    (delPos ps t).lookup t' = ps.lookup t' := by
  induction ps with
  | nil => rfl
  | cons kv rest ih =>
    by_cases hk : kv.1 = t
    · have hb : (kv.1 == t) = true := beq_iff_eq.mpr hk
      have hb2 : (t' == kv.1) = false := by
        rw [hk]
        exact beq_eq_false_iff_ne.mpr hne
      simp only [delPos, List.filter, hb, Bool.not_true, List.lookup, hb2] at ih ⊢
      exact ih
    · have hb : (kv.1 == t) = false := beq_eq_false_iff_ne.mpr hk
      simp only [delPos, List.filter, hb, Bool.not_false, List.lookup] at ih ⊢
      cases hkk : (t' == kv.1) with
      | true => rfl
      | false => exact ih

theorem lookup_append_single {β : Type} (ps : List (String × β))
    (t t' : String) (p : β) :
    (ps ++ [(t, p)]).lookup t' =
      match ps.lookup t' with
      | some v => some v
      | none => if t' == t then some p else none := by
  induction ps with
  | nil =>
    simp only [List.nil_append, List.lookup]
    cases hkk : (t' == t) with
    | true => rfl
    | false => rfl
  | cons kv rest ih =>
    simp only [List.cons_append, List.lookup]
    cases hkk : (t' == kv.1) with
    | true => rfl
    | false => exact ih

theorem lookup_mem {β : Type} (ps : List (String × β)) (t : String)
    (p : β) (h : ps.lookup t = some p) : (t, p) ∈ ps := by
  induction ps with
  | nil => simp [List.lookup] at h
  | cons kv rest ih =>
    simp only [List.lookup] at h
    cases hkk : (t == kv.1) with
    | true =>
      rw [hkk] at h
      simp only [Option.some.injEq] at h
      have hk : t = kv.1 := beq_iff_eq.mp hkk
      have hkv : kv = (t, p) := by
        obtain ⟨k1, v1⟩ := kv
        simp only at hk h
        rw [← hk, h]
      rw [hkv]
      exact List.mem_cons_self _ _
    | false =>
      rw [hkk] at h
      exact List.mem_cons_of_mem _ (ih h)

theorem buy_not_afford (b : CommodityBroker) (t : String) (q : ℤ) (p : ℚ)
    (e : Option String) (h : ¬ p * (q : ℚ) ≤ b.cash) : buy b t q p e = b := by
  unfold buy
  rw [if_neg h]

theorem buy_existing (b : CommodityBroker) (t : String) (q : ℤ) (p : ℚ)
    (e : Option String) (position : CommodityPosition)
    (h : p * (q : ℚ) ≤ b.cash) (hl : b.positions.lookup t = some position) :
    buy b t q p e =
      { cash := b.cash - p * (q : ℚ),
        positions := setPos b.positions t
          { position with
              quantity := position.quantity + q,
              entry_price := ((position.entry_price * (position.quantity : ℚ))
                + (p * (q : ℚ))) / ((position.quantity + q : ℤ) : ℚ),
              expiry_date :=
                if expiryTruthy e then e else position.expiry_date } } := by
  unfold buy
  rw [if_pos h, hl]

theorem buy_new (b : CommodityBroker) (t : String) (q : ℤ) (p : ℚ)
    (e : Option String)
    (h : p * (q : ℚ) ≤ b.cash) (hl : b.positions.lookup t = none) :
    buy b t q p e =
      { cash := b.cash - p * (q : ℚ),
        positions := b.positions ++ [(t, ⟨t, q, p, e⟩)] } := by
  unfold buy
  rw [if_pos h, hl]

theorem sell_no_position (b : CommodityBroker) (t : String) (q : ℤ) (p : ℚ)
    (hl : b.positions.lookup t = none) : sell b t q p = b := by
  unfold sell
  rw [hl]

theorem sell_not_enough (b : CommodityBroker) (t : String) (q : ℤ) (p : ℚ)
    (position : CommodityPosition) (hl : b.positions.lookup t = some position)
    (h : ¬ q ≤ position.quantity) : sell b t q p = b := by
  unfold sell
  rw [hl]
  dsimp only
  rw [if_neg h]

theorem sell_deletes (b : CommodityBroker) (t : String) (q : ℤ) (p : ℚ)
    (position : CommodityPosition) (hl : b.positions.lookup t = some position)
    (h : q ≤ position.quantity) (hz : position.quantity - q = 0) :
    sell b t q p =
      { cash := b.cash + p * (q : ℚ), positions := delPos b.positions t } := by
  unfold sell
  rw [hl]
  dsimp only
  rw [if_pos h, if_pos hz]

theorem sell_updates (b : CommodityBroker) (t : String) (q : ℤ) (p : ℚ)
    (position : CommodityPosition) (hl : b.positions.lookup t = some position)
    (h : q ≤ position.quantity) (hz : ¬ position.quantity - q = 0) :
    sell b t q p =
      { cash := b.cash + p * (q : ℚ),
        positions := setPos b.positions t
          { position with quantity := position.quantity - q } } := by
  unfold sell
  rw [hl]
  dsimp only
  rw [if_pos h, if_neg hz]

/-- The broker state invariant: nonnegative cash and no negative
position quantity. -/
def Inv (b : CommodityBroker) : Prop :=
  0 ≤ b.cash ∧ ∀ t pos, b.positions.lookup t = some pos → 0 ≤ pos.quantity

/-- Positive quoted prices (every non-`None` entry of the prices dict). -/
def GoodPrices (pr : List (String × Option ℚ)) : Prop :=
  ∀ kv ∈ pr, ∀ p, kv.2 = some p → 0 < p

theorem priceOf_pos (pr : List (String × Option ℚ)) (t : String) (price : ℚ)
    (hg : GoodPrices pr) (h : priceOf pr t = some price) : 0 < price := by
  unfold priceOf at h
  cases hl : pr.lookup t with
  | none => rw [hl] at h; exact absurd h (by simp)
  | some v =>
    rw [hl] at h
    cases v with
    | none => exact absurd h (by simp)
    | some p0 =>
      simp only [Option.some.injEq] at h
      exact h ▸ hg _ (lookup_mem pr t (some p0) hl) p0 rfl

theorem buy_Inv (b : CommodityBroker) (t : String) (q : ℤ) (p : ℚ)
    (e : Option String) (hq : 0 ≤ q) (hb : Inv b) : Inv (buy b t q p e) := by
  obtain ⟨hc, hpos⟩ := hb
  by_cases hguard : p * (q : ℚ) ≤ b.cash
  · cases hl : b.positions.lookup t with
    | some position =>
      rw [buy_existing b t q p e position hguard hl]
      refine ⟨by simpa using hguard, ?_⟩
      intro t' pos' h'
      by_cases ht' : t' = t
      · subst ht'
        rw [lookup_setPos_self _ _ _ _ hl] at h'
        have h0 := hpos t' position hl
        simp only [Option.some.injEq] at h'
        rw [← h']
        simp only []
        omega
      · rw [lookup_setPos_ne _ _ _ _ ht'] at h'
        exact hpos t' pos' h'
    | none =>
      rw [buy_new b t q p e hguard hl]
      refine ⟨by simpa using hguard, ?_⟩
      intro t' pos' h'
      simp only [] at h'
      rw [lookup_append_single] at h'
      cases hl' : b.positions.lookup t' with
      | some v =>
        rw [hl'] at h'
        simp only [Option.some.injEq] at h'
        rw [← h']
        exact hpos t' v hl'
      | none =>
        rw [hl'] at h'
        by_cases ht' : t' = t
        · have hbt : (t' == t) = true := beq_iff_eq.mpr ht'
          rw [hbt] at h'
          simp only [if_true, Option.some.injEq] at h'
          rw [← h']
          exact hq
        · have hbt : (t' == t) = false := beq_eq_false_iff_ne.mpr ht'
          rw [hbt] at h'
          simp at h'
  · rw [buy_not_afford b t q p e hguard]
    exact ⟨hc, hpos⟩

theorem sell_Inv (b : CommodityBroker) (t : String) (q : ℤ) (p : ℚ)
    (hq : 0 ≤ q) (hp : 0 ≤ p) (hb : Inv b) : Inv (sell b t q p) := by
  obtain ⟨hc, hpos⟩ := hb
  cases hl : b.positions.lookup t with
  | none => rw [sell_no_position b t q p hl]; exact ⟨hc, hpos⟩
  | some position =>
    by_cases hguard : q ≤ position.quantity
    · have hcash' : 0 ≤ b.cash + p * (q : ℚ) := by
        have : (0 : ℚ) ≤ p * (q : ℚ) := by
          apply mul_nonneg hp
          exact_mod_cast hq
        linarith
      by_cases hz : position.quantity - q = 0
      · rw [sell_deletes b t q p position hl hguard hz]
        refine ⟨hcash', ?_⟩
        intro t' pos' h'
        by_cases ht' : t' = t
        · subst ht'
          simp only [] at h'
          rw [lookup_delPos_self] at h'
          exact absurd h' (by simp)
        · simp only [] at h'
          rw [lookup_delPos_ne _ _ _ ht'] at h'
          exact hpos t' pos' h'
      · rw [sell_updates b t q p position hl hguard hz]
        refine ⟨hcash', ?_⟩
        intro t' pos' h'
        by_cases ht' : t' = t
        · subst ht'
          simp only [] at h'
          rw [lookup_setPos_self _ _ _ _ hl] at h'
          simp only [Option.some.injEq] at h'
          rw [← h']
          simp only []
          omega
        · simp only [] at h'
          rw [lookup_setPos_ne _ _ _ _ ht'] at h'
          exact hpos t' pos' h'
    · rw [sell_not_enough b t q p position hl hguard]
      exact ⟨hc, hpos⟩

theorem truncQ_nonneg (x : ℚ) (hx : 0 ≤ x) : 0 ≤ truncQ x := by
  unfold truncQ
  rw [if_pos hx]
  exact Int.floor_nonneg.mpr hx

theorem sellPass_Inv (pf : List (String × ℚ)) (b : CommodityBroker)
    (pr : List (String × Option ℚ)) (hg : GoodPrices pr) (hb : Inv b) :
    Inv (sellPass b pf pr) := by
  induction pf generalizing b with
  | nil => exact hb
  | cons kw rest ih =>
    unfold sellPass
    rw [List.foldl_cons]
    apply ih
    cases hpr : priceOf pr kw.1 with
    | none => simpa [hpr] using hb
    | some price =>
      simp only [hpr]
      by_cases hlt : tradeQty b pr kw.1 kw.2 price < 0
      · rw [if_pos hlt]
        exact sell_Inv b kw.1 _ price (abs_nonneg _)
          (le_of_lt (priceOf_pos pr kw.1 price hg hpr)) hb
      · rw [if_neg hlt]
        exact hb

theorem buyPass_Inv (pf : List (String × ℚ)) (b : CommodityBroker)
    (pr : List (String × Option ℚ)) (hg : GoodPrices pr) (hb : Inv b) :
    Inv (buyPass b pf pr) := by
  induction pf generalizing b with
  | nil => exact hb
  | cons kw rest ih =>
    unfold buyPass
    rw [List.foldl_cons]
    apply ih
    cases hpr : priceOf pr kw.1 with
    | none => simpa [hpr] using hb
    | some price =>
      simp only [hpr]
      by_cases hlt : 0 < tradeQty b pr kw.1 kw.2 price
      · rw [if_pos hlt]
        by_cases hcost : ((tradeQty b pr kw.1 kw.2 price : ℤ) : ℚ) * price ≤ b.cash
        · rw [if_pos hcost]
          exact buy_Inv b kw.1 _ price none (le_of_lt hlt) hb
        · rw [if_neg hcost]
          apply buy_Inv b kw.1 _ price none _ hb
          apply truncQ_nonneg
          apply div_nonneg hb.1
          exact le_of_lt (priceOf_pos pr kw.1 price hg hpr)
      · rw [if_neg hlt]
        exact hb

theorem execute_portfolio_Inv (b : CommodityBroker) (pf : List (String × ℚ))
    (pr : List (String × Option ℚ)) (hg : GoodPrices pr) (hb : Inv b) :
    Inv (execute_portfolio b pf pr) :=
  buyPass_Inv pf _ pr hg (sellPass_Inv pf b pr hg hb)

/-- Well-formed calls: buys with nonnegative quantity, sells with
nonnegative quantity and price, rebalances against positive quoted
prices. -/
def WellFormedOp : Op → Prop
  | Op.buy _ q _ _ => 0 ≤ q
  | Op.sell _ q p => 0 ≤ q ∧ 0 ≤ p
  | Op.exec _ pr => GoodPrices pr

theorem applyOp_Inv (b : CommodityBroker) (op : Op) (hwf : WellFormedOp op)
    (hb : Inv b) : Inv (applyOp b op) := by
  cases op with
  | buy t q p e => exact buy_Inv b t q p e hwf hb
  | sell t q p => exact sell_Inv b t q p hwf.1 hwf.2 hb
  | exec pf pr => exact execute_portfolio_Inv b pf pr hwf hb

theorem runOps_Inv (ops : List Op) (b : CommodityBroker)
    (hwf : ∀ op ∈ ops, WellFormedOp op) (hb : Inv b) : Inv (runOps b ops) := by
  induction ops generalizing b with
  | nil => exact hb
  | cons op rest ih =>
    unfold runOps
    rw [List.foldl_cons]
    exact ih _ (fun o ho => hwf o (List.mem_cons_of_mem _ ho))
      (applyOp_Inv b op (hwf op (List.mem_cons_self _ _)) hb)

/-- **C8 counterexample.** A sequence of well-formed operations from an
empty position map that leaves a ZERO-quantity position in
`broker.positions`: with cash 1005, `buy("Y", 10, 100)` then
`execute_portfolio({"X": 1.0}, {"X": 50, "Y": 100})`.  The buy pass wants
20 units of X (cost 1000 > cash 5), so the partial-fill branch buys
`int(5/50) = 0` units, and `buy` with quantity 0 creates the position
`("X", quantity 0)`. -/
theorem c8_zero_quantity_position_created :
    (runOps ⟨1005, []⟩ [Op.buy "Y" 10 100 none,
        Op.exec [("X", 1)] [("X", some 50), ("Y", some 100)]]).positions.lookup "X"
      = some ⟨"X", 0, 50, none⟩ ∧
    ∀ op ∈ [Op.buy "Y" 10 100 none,
        Op.exec [("X", 1)] [("X", some 50), ("Y", some 100)]], WellFormedOp op := by
  have e1 : applyOp ⟨1005, []⟩ (Op.buy "Y" 10 100 none) =
      (⟨5, [("Y", ⟨"Y", 10, 100, none⟩)]⟩ : CommodityBroker) := by
    show buy ⟨1005, []⟩ "Y" 10 100 none = _
    rw [buy_new ⟨1005, []⟩ "Y" 10 100 none (by push_cast; norm_num) rfl]
    simp only [CommodityBroker.mk.injEq, List.nil_append]
    constructor
    · push_cast
      norm_num
    · trivial
  have e2 : get_portfolio_value ⟨5, [("Y", ⟨"Y", 10, 100, none⟩)]⟩
      [("X", some 50), ("Y", some 100)] = 1005 := by
    unfold get_portfolio_value
    have hp : priceOf [("X", some 50), ("Y", some 100)] "Y" = some 100 := rfl
    simp only [List.map_cons, List.map_nil, hp]
    push_cast
    norm_num
  have e3 : tradeQty ⟨5, [("Y", ⟨"Y", 10, 100, none⟩)]⟩
      [("X", some 50), ("Y", some 100)] "X" 1 50 = 20 := by
    unfold tradeQty
    rw [e2]
    have hl : List.lookup "X"
        (CommodityBroker.positions ⟨5, [("Y", ⟨"Y", 10, 100, none⟩)]⟩) = none := rfl
    rw [hl]
    show truncQ ((1005 * 1 - (((0 : ℤ) : ℚ)) * 50) / 50) = 20
    unfold truncQ
    rw [if_pos (by norm_num)]
    rw [Int.floor_eq_iff] <;> norm_num
  have e4 : sellPass ⟨5, [("Y", ⟨"Y", 10, 100, none⟩)]⟩ [("X", 1)]
      [("X", some 50), ("Y", some 100)] = ⟨5, [("Y", ⟨"Y", 10, 100, none⟩)]⟩ := by
    unfold sellPass
    rw [List.foldl_cons, List.foldl_nil]
    have hp : priceOf [("X", some 50), ("Y", some 100)] "X" = some 50 := rfl
    dsimp only
    rw [hp]
    dsimp only
    rw [e3]
    rw [if_neg (by norm_num)]
  have e5 : buyPass ⟨5, [("Y", ⟨"Y", 10, 100, none⟩)]⟩ [("X", 1)]
      [("X", some 50), ("Y", some 100)] =
      (⟨5, [("Y", ⟨"Y", 10, 100, none⟩), ("X", ⟨"X", 0, 50, none⟩)]⟩ :
        CommodityBroker) := by
    unfold buyPass
    rw [List.foldl_cons, List.foldl_nil]
    have hp : priceOf [("X", some 50), ("Y", some 100)] "X" = some 50 := rfl
    dsimp only
    rw [hp]
    dsimp only
    rw [e3]
    rw [if_pos (by norm_num)]
    rw [if_neg (by push_cast; norm_num)]
    have ht : truncQ (CommodityBroker.cash ⟨5, [("Y", ⟨"Y", 10, 100, none⟩)]⟩ / 50) = 0 := by
      show truncQ ((5 : ℚ) / 50) = 0
      unfold truncQ
      rw [if_pos (by norm_num)]
      rw [Int.floor_eq_iff] <;> norm_num
    rw [ht]
    rw [buy_new ⟨5, [("Y", ⟨"Y", 10, 100, none⟩)]⟩ "X" 0 50 none
      (by push_cast; norm_num) rfl]
    simp only [CommodityBroker.mk.injEq, List.cons_append, List.nil_append]
    constructor
    · push_cast
      norm_num
    · trivial
  constructor
  · show (applyOp (applyOp ⟨1005, []⟩ (Op.buy "Y" 10 100 none))
        (Op.exec [("X", 1)] [("X", some 50), ("Y", some 100)])).positions.lookup "X"
      = some ⟨"X", 0, 50, none⟩
    rw [e1]
    show (execute_portfolio ⟨5, [("Y", ⟨"Y", 10, 100, none⟩)]⟩ [("X", 1)]
        [("X", some 50), ("Y", some 100)]).positions.lookup "X" = some ⟨"X", 0, 50, none⟩
    unfold execute_portfolio
    rw [e4, e5]
    rfl
  · intro op hop
    simp only [List.mem_cons, List.not_mem_nil, or_false] at hop
    rcases hop with h | h <;> subst h
    · show (0 : ℤ) ≤ 10
      norm_num
    · show GoodPrices [("X", some 50), ("Y", some 100)]
      intro kv hkv pp hpp
      simp only [List.mem_cons, List.not_mem_nil, or_false] at hkv
      rcases hkv with h | h <;> subst h <;> simp only [Option.some.injEq] at hpp <;>
        rw [← hpp] <;> norm_num

/-- **C8 (amended).** After any sequence of well-formed `buy`, `sell` and
`execute_portfolio` operations (nonnegative direct-buy/sell quantities,
nonnegative sell prices, positive quoted rebalance prices) starting from
an empty position map and nonnegative cash, every position in
`broker.positions` has quantity `≥ 0` (not `> 0`: `buy` with quantity 0 —
in particular `execute_portfolio`'s partial-fill branch when
`int(cash/price) = 0` — creates a zero-quantity position, see the
counterexample); and `sell` removes the position exactly when its
quantity reaches zero. -/
theorem commodity_broker_position_quantities :
    (∀ (cash0 : ℚ) (ops : List Op), 0 ≤ cash0 → (∀ op ∈ ops, WellFormedOp op) →
      0 ≤ (runOps ⟨cash0, []⟩ ops).cash ∧
      ∀ t pos, (runOps ⟨cash0, []⟩ ops).positions.lookup t = some pos →
        0 ≤ pos.quantity) ∧
    (∀ (b : CommodityBroker) (t : String) (q : ℤ) (p : ℚ)
        (pos : CommodityPosition),
      b.positions.lookup t = some pos → q ≤ pos.quantity →
      ((sell b t q p).positions.lookup t = none ↔ pos.quantity = q)) := by
  constructor
  · intro cash0 ops h0 hwf
    exact runOps_Inv ops ⟨cash0, []⟩ hwf ⟨h0, by intro t pos h; simp [List.lookup] at h⟩
  · intro b t q p pos hl hq
    by_cases hz : pos.quantity - q = 0
    · rw [sell_deletes b t q p pos hl hq hz]
      simp only []
      rw [lookup_delPos_self]
      constructor
      · intro _
        omega
      · intro _
        rfl
    · rw [sell_updates b t q p pos hl hq hz]
      simp only []
      rw [lookup_setPos_self _ _ _ _ hl]
      constructor
      · intro h
        exact absurd h (by simp)
      · intro h
        omega

/-- Witness for C8's amended theorem: a buy of 2 units at price 10 from
cash 100, and a full sell of a 2-unit position. -/
theorem commodity_broker_position_quantities_witness :
    (0 ≤ (runOps ⟨100, []⟩ [Op.buy "Y" 2 10 none]).cash ∧
      ∀ t pos, (runOps ⟨100, []⟩ [Op.buy "Y" 2 10 none]).positions.lookup t
        = some pos → 0 ≤ pos.quantity) ∧
    ((sell ⟨0, [("Y", ⟨"Y", 2, 10, none⟩)]⟩ "Y" 2
        5).positions.lookup "Y" = none ↔
      (⟨"Y", 2, 10, none⟩ : CommodityPosition).quantity = 2) := by
  constructor
  · exact commodity_broker_position_quantities.1 100 [Op.buy "Y" 2 10 none]
      (by norm_num)
      (by
        intro op hop
        simp only [List.mem_cons, List.not_mem_nil, or_false] at hop
        subst hop
        show (0 : ℤ) ≤ 2
        norm_num)
  · exact commodity_broker_position_quantities.2
      ⟨0, [("Y", ⟨"Y", 2, 10, none⟩)]⟩ "Y" 2 5 ⟨"Y", 2, 10, none⟩ rfl (by norm_num)

/-- The C9 frame relation: every position in `b'` either keeps the expiry
date it had in `b` or has expiry `none`. -/
def ExpiryFrame (b b' : CommodityBroker) : Prop :=
  ∀ t pos', b'.positions.lookup t = some pos' →
    (∃ pos, b.positions.lookup t = some pos ∧
      pos'.expiry_date = pos.expiry_date) ∨
    pos'.expiry_date = none

theorem expiryFrame_refl (b : CommodityBroker) : ExpiryFrame b b := by
  intro t pos' h
  exact Or.inl ⟨pos', h, rfl⟩

theorem expiryFrame_trans {a b c : CommodityBroker}
    (h1 : ExpiryFrame a b) (h2 : ExpiryFrame b c) : ExpiryFrame a c := by
  intro t pos' h
  rcases h2 t pos' h with ⟨pos, hb, he⟩ | he
  · rcases h1 t pos hb with ⟨pos0, ha, he0⟩ | he0
    · exact Or.inl ⟨pos0, ha, he.trans he0⟩
    · exact Or.inr (he.trans he0)
  · exact Or.inr he

theorem sell_expiryFrame (b : CommodityBroker) (t : String) (q : ℤ) (p : ℚ) :
    ExpiryFrame b (sell b t q p) := by
  intro t' pos' h'
  cases hl : b.positions.lookup t with
  | none => rw [sell_no_position b t q p hl] at h'; exact Or.inl ⟨pos', h', rfl⟩
  | some position =>
    by_cases hguard : q ≤ position.quantity
    · by_cases hz : position.quantity - q = 0
      · rw [sell_deletes b t q p position hl hguard hz] at h'
        simp only [] at h'
        by_cases ht' : t' = t
        · subst ht'
          rw [lookup_delPos_self] at h'
          exact absurd h' (by simp)
        · rw [lookup_delPos_ne _ _ _ ht'] at h'
          exact Or.inl ⟨pos', h', rfl⟩
      · rw [sell_updates b t q p position hl hguard hz] at h'
        simp only [] at h'
        by_cases ht' : t' = t
        · subst ht'
          rw [lookup_setPos_self _ _ _ _ hl] at h'
          simp only [Option.some.injEq] at h'
          exact Or.inl ⟨position, hl, by rw [← h']⟩
        · rw [lookup_setPos_ne _ _ _ _ ht'] at h'
          exact Or.inl ⟨pos', h', rfl⟩
    · rw [sell_not_enough b t q p position hl hguard] at h'
      exact Or.inl ⟨pos', h', rfl⟩

theorem buy_none_expiryFrame (b : CommodityBroker) (t : String) (q : ℤ)
    (p : ℚ) : ExpiryFrame b (buy b t q p none) := by
  intro t' pos' h'
  by_cases hguard : p * (q : ℚ) ≤ b.cash
  · cases hl : b.positions.lookup t with
    | some position =>
      rw [buy_existing b t q p none position hguard hl] at h'
      simp only [] at h'
      by_cases ht' : t' = t
      · subst ht'
        rw [lookup_setPos_self _ _ _ _ hl] at h'
        simp only [Option.some.injEq] at h'
        refine Or.inl ⟨position, hl, ?_⟩
        rw [← h']
        show (if expiryTruthy none then none else position.expiry_date)
          = position.expiry_date
        rfl
      · rw [lookup_setPos_ne _ _ _ _ ht'] at h'
        exact Or.inl ⟨pos', h', rfl⟩
    | none =>
      rw [buy_new b t q p none hguard hl] at h'
      simp only [] at h'
      rw [lookup_append_single] at h'
      cases hl' : b.positions.lookup t' with
      | some v =>
        rw [hl'] at h'
        simp only [Option.some.injEq] at h'
        refine Or.inl ⟨v, rfl, ?_⟩
        cases h'
        rfl
      | none =>
        rw [hl'] at h'
        by_cases ht' : t' = t
        · have hbt : (t' == t) = true := beq_iff_eq.mpr ht'
          rw [hbt] at h'
          simp only [if_true, Option.some.injEq] at h'
          refine Or.inr ?_
          rw [← h']
        · have hbt : (t' == t) = false := beq_eq_false_iff_ne.mpr ht'
          rw [hbt] at h'
          simp at h'
  · rw [buy_not_afford b t q p none hguard] at h'
    exact Or.inl ⟨pos', h', rfl⟩

theorem sellPass_expiryFrame (pf : List (String × ℚ)) (b : CommodityBroker)
    (pr : List (String × Option ℚ)) : ExpiryFrame b (sellPass b pf pr) := by
  induction pf generalizing b with
  | nil => exact expiryFrame_refl b
  | cons kw rest ih =>
    unfold sellPass
    rw [List.foldl_cons]
    refine expiryFrame_trans ?_ (ih _)
    cases hpr : priceOf pr kw.1 with
    | none => simp only [hpr]; exact expiryFrame_refl b
    | some price =>
      simp only [hpr]
      by_cases hlt : tradeQty b pr kw.1 kw.2 price < 0
      · rw [if_pos hlt]
        exact sell_expiryFrame b kw.1 _ price
      · rw [if_neg hlt]
        exact expiryFrame_refl b

theorem buyPass_expiryFrame (pf : List (String × ℚ)) (b : CommodityBroker)
    (pr : List (String × Option ℚ)) : ExpiryFrame b (buyPass b pf pr) := by
  induction pf generalizing b with
  | nil => exact expiryFrame_refl b
  | cons kw rest ih =>
    unfold buyPass
    rw [List.foldl_cons]
    refine expiryFrame_trans ?_ (ih _)
    cases hpr : priceOf pr kw.1 with
    | none => simp only [hpr]; exact expiryFrame_refl b
    | some price =>
      simp only [hpr]
      by_cases hlt : 0 < tradeQty b pr kw.1 kw.2 price
      · rw [if_pos hlt]
        by_cases hcost : ((tradeQty b pr kw.1 kw.2 price : ℤ) : ℚ) * price ≤ b.cash
        · rw [if_pos hcost]
          exact buy_none_expiryFrame b kw.1 _ price
        · rw [if_neg hcost]
          exact buy_none_expiryFrame b kw.1 _ price
      · rw [if_neg hlt]
        exact expiryFrame_refl b

/-- **C9 (confirmed).** `execute_portfolio` never writes the
`expiry_date` field: every `buy` it issues (full or partial fill) passes
`expiry_date=None`, which `buy` treats as "leave unchanged" for an
existing position and stores as `None` for a new one.  Hence every
position present after rebalancing either carries exactly the expiry date
it had before, or (if created by the rebalance) has expiry `None`; in
particular a ticker with no prior position always ends with expiry
`None`. -/
theorem execute_portfolio_expiry_frame (b : CommodityBroker)
    (pf : List (String × ℚ)) (pr : List (String × Option ℚ)) :
    ∀ t pos', (execute_portfolio b pf pr).positions.lookup t = some pos' →
      ((∃ pos, b.positions.lookup t = some pos ∧
        pos'.expiry_date = pos.expiry_date) ∨
       pos'.expiry_date = none) :=
  expiryFrame_trans (sellPass_expiryFrame pf b pr)
    (buyPass_expiryFrame pf _ pr)

/-- Witness for C9 at a concrete broker: an empty rebalance leaves the
held position's expiry date untouched. -/
theorem execute_portfolio_expiry_frame_witness :
    (∃ pos, (⟨100, [("Y", ⟨"Y", 2, 10, some "2025-01-14"⟩)]⟩ :
        CommodityBroker).positions.lookup "Y" = some pos ∧
      (⟨"Y", 2, 10, some "2025-01-14"⟩ : CommodityPosition).expiry_date
        = pos.expiry_date) ∨
    (⟨"Y", 2, 10, some "2025-01-14"⟩ : CommodityPosition).expiry_date
      = none :=
  execute_portfolio_expiry_frame
    ⟨100, [("Y", ⟨"Y", 2, 10, some "2025-01-14"⟩)]⟩ [] [] "Y"
    ⟨"Y", 2, 10, some "2025-01-14"⟩ rfl

end CommodityBrokerM

namespace OptionPricing

open Real MeasureTheory

/-!
Embedding of `option.py`.  `scipy.stats.norm.cdf` is the standard normal
cumulative distribution function, defined here by its integral
`normCdf x = (∫_{-∞}^{x} e^{-t²/2} dt) / √(2π)`; `math.exp`, `math.log`
and `math.sqrt` are `Real.exp`, `Real.log`, `Real.sqrt`.
-/

/-- The unnormalised standard normal density `e^{-t²/2}`
(`Option.normal_pdf` without the `1/√(2π)` factor). -/
noncomputable def gauss (t : ℝ) : ℝ := Real.exp (-t ^ 2 / 2)

theorem gauss_eq : gauss = fun t : ℝ => Real.exp (-(1 / 2) * t ^ 2) := by
  funext t
  unfold gauss
  congr 1
  ring

theorem gauss_pos (t : ℝ) : 0 < gauss t := Real.exp_pos _

theorem integrable_gauss : Integrable gauss := by
  rw [gauss_eq]
  exact integrable_exp_neg_mul_sq (by norm_num)

theorem integral_gauss : ∫ t : ℝ, gauss t = Real.sqrt (2 * π) := by
  rw [gauss_eq]
  rw [integral_gaussian]
  congr 1
  rw [eq_comm]
  field_simp
  ring

theorem sqrt_two_pi_pos : 0 < Real.sqrt (2 * π) :=
  Real.sqrt_pos.mpr (by positivity)

/-- `scipy.stats.norm.cdf` (`Option.norm_dist`). -/
noncomputable def normCdf (x : ℝ) : ℝ :=
  (∫ t in Set.Iic x, gauss t) / Real.sqrt (2 * π)

theorem normCdf_nonneg (x : ℝ) : 0 ≤ normCdf x :=
  div_nonneg
    (setIntegral_nonneg measurableSet_Iic (fun t _ => (gauss_pos t).le))
    (Real.sqrt_nonneg _)

theorem setIntegral_gauss_le (s : Set ℝ) :
    ∫ t in s, gauss t ≤ Real.sqrt (2 * π) := by
  rw [← integral_gauss]
  exact setIntegral_le_integral integrable_gauss
    (Filter.Eventually.of_forall (fun t => (gauss_pos t).le))

theorem normCdf_le_one (x : ℝ) : normCdf x ≤ 1 := by
  unfold normCdf
  rw [div_le_one sqrt_two_pi_pos]
  exact setIntegral_gauss_le _

theorem integral_Iic_add_Ioi_gauss (x : ℝ) :
    (∫ t in Set.Iic x, gauss t) + ∫ t in Set.Ioi x, gauss t
      = Real.sqrt (2 * π) := by
  rw [← integral_gauss, ← Set.compl_Iic]
  exact integral_add_compl measurableSet_Iic integrable_gauss

theorem integral_Iic_neg_gauss (x : ℝ) :
    ∫ t in Set.Iic (-x), gauss t = ∫ t in Set.Ioi x, gauss t := by
  rw [← integral_indicator measurableSet_Iic]
  rw [← integral_neg_eq_self ((Set.Iic (-x)).indicator gauss) volume]
  have hptw : (fun t : ℝ => (Set.Iic (-x)).indicator gauss (-t))
      = (Set.Ici x).indicator gauss := by
    funext t
    by_cases h : x ≤ t
    · have h1 : -t ∈ Set.Iic (-x) := by
        simp only [Set.mem_Iic]
        linarith
      have h2 : t ∈ Set.Ici x := h
      rw [Set.indicator_of_mem h1, Set.indicator_of_mem h2]
      unfold gauss
      congr 1
      ring
    · have h1 : -t ∉ Set.Iic (-x) := by
        simp only [Set.mem_Iic]
        intro hc
        exact h (by linarith)
      have h2 : t ∉ Set.Ici x := h
      rw [Set.indicator_of_not_mem h1, Set.indicator_of_not_mem h2]
  rw [hptw]
  rw [integral_indicator measurableSet_Ici]
  exact integral_Ici_eq_integral_Ioi

theorem normCdf_neg (x : ℝ) : normCdf (-x) = 1 - normCdf x := by
  unfold normCdf
  rw [integral_Iic_neg_gauss]
  have h := integral_Iic_add_Ioi_gauss x
  have hs := sqrt_two_pi_pos
  have hIoi : ∫ t in Set.Ioi x, gauss t
      = Real.sqrt (2 * π) - ∫ t in Set.Iic x, gauss t := by linarith
  rw [hIoi, sub_div, div_self (ne_of_gt hs)]

/-- Translation of an `Iic` integral (substitution `t = u - v`). -/
theorem integral_Iic_shift (f : ℝ → ℝ) (b v : ℝ) :
    ∫ t in Set.Iic b, f t = ∫ u in Set.Iic (b + v), f (u - v) := by
  have hptw : (fun u : ℝ => (Set.Iic b).indicator f (u - v))
      = (Set.Iic (b + v)).indicator (fun u => f (u - v)) := by
    funext u
    by_cases h : u ≤ b + v
    · have h1 : u - v ∈ Set.Iic b := by
        simp only [Set.mem_Iic]
        linarith
      rw [Set.indicator_of_mem h1, Set.indicator_of_mem (Set.mem_Iic.mpr h)]
    · have h1 : u - v ∉ Set.Iic b := by
        simp only [Set.mem_Iic]
        intro hc
        exact h (by linarith)
      rw [Set.indicator_of_not_mem h1,
        Set.indicator_of_not_mem (fun hc => h (Set.mem_Iic.mp hc))]
  rw [← integral_indicator measurableSet_Iic]
  have hshift : ∫ u : ℝ, (Set.Iic b).indicator f (u - v)
      = ∫ t : ℝ, (Set.Iic b).indicator f t := by
    have h0 : ∫ u : ℝ, (Set.Iic b).indicator f (u + -v)
        = ∫ t : ℝ, (Set.Iic b).indicator f t :=
      integral_add_right_eq_self _ (-v)
    simpa [sub_eq_add_neg] using h0
  rw [← hshift, hptw, integral_indicator measurableSet_Iic]

/-- The core Black-Scholes inequality: for every `m` and `v > 0`,
`Φ((m − v²/2)/v) ≤ eᵐ · Φ((m + v²/2)/v)`. -/
theorem normCdf_key (m v : ℝ) (hv : 0 < v) :
    normCdf ((m - v ^ 2 / 2) / v) ≤ Real.exp m * normCdf ((m + v ^ 2 / 2) / v) := by
  set a : ℝ := (m + v ^ 2 / 2) / v with ha
  have hb : (m - v ^ 2 / 2) / v = a - v := by
    rw [ha]
    field_simp
    ring
  have hnum : ∫ t in Set.Iic (a - v), gauss t
      ≤ Real.exp m * ∫ u in Set.Iic a, gauss u := by
    have h1 : ∫ t in Set.Iic (a - v), gauss t
        = ∫ u in Set.Iic a, gauss (u - v) := by
      have := integral_Iic_shift gauss (a - v) v
      simpa using this
    rw [h1]
    have h2 : ∫ u in Set.Iic a, Real.exp m * gauss u
        = Real.exp m * ∫ u in Set.Iic a, gauss u :=
      MeasureTheory.integral_mul_left _ _
    rw [← h2]
    apply setIntegral_mono_on
    · exact (integrable_gauss.comp_sub_right v).integrableOn
    · exact (integrable_gauss.const_mul _).integrableOn
    · exact measurableSet_Iic
    · intro u hu
      have hu' : u ≤ a := Set.mem_Iic.mp hu
      have huv : u * v ≤ m + v ^ 2 / 2 := by
        have := mul_le_mul_of_nonneg_right hu' (le_of_lt hv)
        calc u * v ≤ a * v := this
          _ = m + v ^ 2 / 2 := by rw [ha]; field_simp; ring
      unfold gauss
      rw [← Real.exp_add]
      apply Real.exp_le_exp.mpr
      nlinarith [sq_nonneg (u - v)]
  unfold normCdf
  rw [div_le_iff₀ sqrt_two_pi_pos]
  calc ∫ t in Set.Iic ((m - v ^ 2 / 2) / v), gauss t
      = ∫ t in Set.Iic (a - v), gauss t := by rw [hb]
    _ ≤ Real.exp m * ∫ u in Set.Iic a, gauss u := hnum
    _ = Real.exp m * ((∫ u in Set.Iic a, gauss u) / Real.sqrt (2 * π))
        * Real.sqrt (2 * π) := by
        field_simp

/-- `Option.option_type`: `'Call'` or `'Put'` (the constructor raises
`ValueError` on any other string, so the embedded type has exactly these
two values). -/
inductive OptType where
  | Call
  | Put
deriving DecidableEq, Repr

/-- Embeds the `Option` class of `option.py` (named `OptionContract` here —
`Option` is taken in Lean).  The constructor validates
`underlying_price, strike_price, time_to_maturity, implied_volatility > 0`
(raising `ValueError` otherwise); theorems carry those bounds as
hypotheses.  `time_to_maturity` is in days. -/
structure OptionContract where
  option_type : OptType
  underlying_price : ℝ
  strike_price : ℝ
  interest_rate : ℝ
  dividend_yield : ℝ
  time_to_maturity : ℝ
  implied_volatility : ℝ

def DAYS_IN_YEAR : ℝ := 365

/-- `Option._calculate_d1_d2` (first component). -/
noncomputable def d1 (S K T r q sigma : ℝ) : ℝ :=
  (Real.log (S * Real.exp (-q * T) / (K * Real.exp (-r * T)))
    + 0.5 * sigma ^ 2 * T) / (sigma * Real.sqrt T)

/-- `Option._calculate_d1_d2` (second component). -/
noncomputable def d2 (S K T r q sigma : ℝ) : ℝ :=
  d1 S K T r q sigma - sigma * Real.sqrt T

/-- `Option.black_scholes(underlying_price=None, time_to_maturity=None,
implied_volatility=None)`: per-call overrides default to the stored
contract parameters; strike, rate and dividend yield always come from the
contract. -/
noncomputable def black_scholes (o : OptionContract)
    (underlying_price : Option ℝ := none)
    (time_to_maturity : Option ℝ := none)
    (implied_volatility : Option ℝ := none) : ℝ :=
  let T := (time_to_maturity.getD o.time_to_maturity) / DAYS_IN_YEAR
  let S := underlying_price.getD o.underlying_price
  let K := o.strike_price
  let r := o.interest_rate
  let q := o.dividend_yield
  let sigma := implied_volatility.getD o.implied_volatility
  match o.option_type with
  | OptType.Call =>
      S * Real.exp (-q * T) * normCdf (d1 S K T r q sigma)
        - K * Real.exp (-r * T) * normCdf (d2 S K T r q sigma)
  | OptType.Put =>
      K * Real.exp (-r * T) * normCdf (-(d2 S K T r q sigma))
        - S * Real.exp (-q * T) * normCdf (-(d1 S K T r q sigma))

theorem black_scholes_call_eq (S K r q Td sigma : ℝ) :
    black_scholes ⟨OptType.Call, S, K, r, q, Td, sigma⟩ =
      S * Real.exp (-q * (Td / DAYS_IN_YEAR))
          * normCdf (d1 S K (Td / DAYS_IN_YEAR) r q sigma)
        - K * Real.exp (-r * (Td / DAYS_IN_YEAR))
          * normCdf (d2 S K (Td / DAYS_IN_YEAR) r q sigma) := rfl

theorem black_scholes_put_eq (S K r q Td sigma : ℝ) :
    black_scholes ⟨OptType.Put, S, K, r, q, Td, sigma⟩ =
      K * Real.exp (-r * (Td / DAYS_IN_YEAR))
          * normCdf (-(d2 S K (Td / DAYS_IN_YEAR) r q sigma))
        - S * Real.exp (-q * (Td / DAYS_IN_YEAR))
          * normCdf (-(d1 S K (Td / DAYS_IN_YEAR) r q sigma)) := rfl

/-- `d1` in the canonical `(m + v²/2)/v` form, where
`m = log(S·e^{−qT}/(K·e^{−rT}))` and `v = σ√T`. -/
theorem d1_eq (S K T r q sigma : ℝ) (hT : 0 < T) :
    d1 S K T r q sigma =
      (Real.log (S * Real.exp (-q * T) / (K * Real.exp (-r * T)))
        + (sigma * Real.sqrt T) ^ 2 / 2) / (sigma * Real.sqrt T) := by
  unfold d1
  congr 2
  rw [mul_pow, Real.sq_sqrt hT.le]
  ring

theorem d2_eq (S K T r q sigma : ℝ) (hT : 0 < T) (hsigma : 0 < sigma) :
    d2 S K T r q sigma =
      (Real.log (S * Real.exp (-q * T) / (K * Real.exp (-r * T)))
        - (sigma * Real.sqrt T) ^ 2 / 2) / (sigma * Real.sqrt T) := by
  unfold d2
  rw [d1_eq S K T r q sigma hT]
  have hv : sigma * Real.sqrt T ≠ 0 :=
    ne_of_gt (mul_pos hsigma (Real.sqrt_pos.mpr hT))
  field_simp
  ring

/-- **C4 (confirmed).** For every option with valid parameters
(`S, K, σ > 0` and time-to-maturity in days `> 0`), the Black-Scholes
price of the Call and of the Put are nonnegative, and put-call parity
holds exactly over the reals:
`Call − Put = S·e^(−qT) − K·e^(−rT)` with `T = days/365`. -/
theorem black_scholes_nonneg_and_put_call_parity
    (S K r q Td sigma : ℝ)
    (hS : 0 < S) (hK : 0 < K) (hsigma : 0 < sigma) (hT : 0 < Td) :
    0 ≤ black_scholes ⟨OptType.Call, S, K, r, q, Td, sigma⟩ ∧
    0 ≤ black_scholes ⟨OptType.Put, S, K, r, q, Td, sigma⟩ ∧
    black_scholes ⟨OptType.Call, S, K, r, q, Td, sigma⟩
        - black_scholes ⟨OptType.Put, S, K, r, q, Td, sigma⟩
      = S * Real.exp (-q * (Td / DAYS_IN_YEAR))
        - K * Real.exp (-r * (Td / DAYS_IN_YEAR)) := by
  have hTy : 0 < Td / DAYS_IN_YEAR := by
    unfold DAYS_IN_YEAR
    positivity
  set T : ℝ := Td / DAYS_IN_YEAR with hTdef
  set v : ℝ := sigma * Real.sqrt T with hvdef
  have hv : 0 < v := mul_pos hsigma (Real.sqrt_pos.mpr hTy)
  set Sq : ℝ := S * Real.exp (-q * T) with hSqdef
  set Kr : ℝ := K * Real.exp (-r * T) with hKrdef
  have hSq : 0 < Sq := mul_pos hS (Real.exp_pos _)
  have hKr : 0 < Kr := mul_pos hK (Real.exp_pos _)
  set m : ℝ := Real.log (Sq / Kr) with hmdef
  have hem : Real.exp m = Sq / Kr := Real.exp_log (div_pos hSq hKr)
  have hd1 : d1 S K T r q sigma = (m + v ^ 2 / 2) / v := by
    rw [d1_eq S K T r q sigma hTy]
  have hd2 : d2 S K T r q sigma = (m - v ^ 2 / 2) / v := by
    rw [d2_eq S K T r q sigma hTy hsigma]
  have hnd1 : -(d1 S K T r q sigma) = (-m - v ^ 2 / 2) / v := by
    rw [hd1]
    field_simp
    ring
  have hnd2 : -(d2 S K T r q sigma) = (-m + v ^ 2 / 2) / v := by
    rw [hd2]
    field_simp
    ring
  -- Call nonnegativity from the key inequality at (m, v)
  have hkeyC := normCdf_key m v hv
  rw [← hd1, ← hd2] at hkeyC
  have hcall : 0 ≤ black_scholes ⟨OptType.Call, S, K, r, q, Td, sigma⟩ := by
    rw [black_scholes_call_eq]
    rw [← hTdef, ← hSqdef, ← hKrdef]
    have h1 : Kr * normCdf (d2 S K T r q sigma)
        ≤ Kr * (Real.exp m * normCdf (d1 S K T r q sigma)) :=
      mul_le_mul_of_nonneg_left hkeyC hKr.le
    have h2 : Kr * (Real.exp m * normCdf (d1 S K T r q sigma))
        = Sq * normCdf (d1 S K T r q sigma) := by
      rw [hem]
      field_simp
    linarith
  -- Put nonnegativity from the key inequality at (-m, v)
  have hkeyP := normCdf_key (-m) v hv
  have hkeyP' : normCdf (-(d1 S K T r q sigma))
      ≤ Real.exp (-m) * normCdf (-(d2 S K T r q sigma)) := by
    rw [hnd1, hnd2]
    have e1 : (-m - v ^ 2 / 2) / v = ((-m) - v ^ 2 / 2) / v := by ring_nf
    have e2 : (-m + v ^ 2 / 2) / v = ((-m) + v ^ 2 / 2) / v := by ring_nf
    rw [e1, e2]
    exact hkeyP
  have hput : 0 ≤ black_scholes ⟨OptType.Put, S, K, r, q, Td, sigma⟩ := by
    rw [black_scholes_put_eq]
    rw [← hTdef, ← hSqdef, ← hKrdef]
    have hexpm : Real.exp (-m) = Kr / Sq := by
      rw [Real.exp_neg, hem]
      rw [inv_div]
    have h1 : Sq * normCdf (-(d1 S K T r q sigma))
        ≤ Sq * (Real.exp (-m) * normCdf (-(d2 S K T r q sigma))) :=
      mul_le_mul_of_nonneg_left hkeyP' hSq.le
    have h2 : Sq * (Real.exp (-m) * normCdf (-(d2 S K T r q sigma)))
        = Kr * normCdf (-(d2 S K T r q sigma)) := by
      rw [hexpm]
      field_simp
    linarith
  refine ⟨hcall, hput, ?_⟩
  rw [black_scholes_call_eq, black_scholes_put_eq]
  rw [← hTdef, ← hSqdef, ← hKrdef]
  have hn1 : normCdf (-(d1 S K T r q sigma))
      = 1 - normCdf (d1 S K T r q sigma) := normCdf_neg _
  have hn2 : normCdf (-(d2 S K T r q sigma))
      = 1 - normCdf (d2 S K T r q sigma) := normCdf_neg _
  rw [hn1, hn2]
  ring

/-- Witness for C4 at `S = K = 1`, `r = q = 0`, 365 days to maturity,
`σ = 1`. -/
theorem black_scholes_nonneg_and_put_call_parity_witness :
    0 ≤ black_scholes ⟨OptType.Call, 1, 1, 0, 0, 365, 1⟩ ∧
    0 ≤ black_scholes ⟨OptType.Put, 1, 1, 0, 0, 365, 1⟩ ∧
    black_scholes ⟨OptType.Call, 1, 1, 0, 0, 365, 1⟩
        - black_scholes ⟨OptType.Put, 1, 1, 0, 0, 365, 1⟩
      = 1 * Real.exp (-0 * ((365 : ℝ) / DAYS_IN_YEAR))
        - 1 * Real.exp (-0 * ((365 : ℝ) / DAYS_IN_YEAR)) :=
  black_scholes_nonneg_and_put_call_parity 1 1 0 0 365 1
    (by norm_num) (by norm_num) (by norm_num) (by norm_num)

/-- Embeds `OptionPosition` from `new_broker.py` (the `option` field is
named `opt`: `Option` is taken in Lean). -/
structure OptionPosition where
  name : String
  opt : OptionContract
  quantity : ℤ
  entry_price : ℝ

/-- Embeds `ExtendedBroker` from `new_broker.py`.  The inherited
`pybacktestchain.broker.Broker` state contributes `cash` and the share
positions (ticker ↦ quantity); `option_positions` is the subclass's dict.
The transaction log is write-only for the claims and omitted. -/
structure ExtendedBroker where
  cash : ℝ
  positions : List (String × ℤ)
  option_positions : List (String × OptionPosition)

/-- `ExtendedBroker.buy_option(name, opt, quantity, date)`: prices the
premium with `opt.black_scholes()` (no overrides), debits cash if
sufficient, and creates or averages the named position.  The `date`
argument only feeds the transaction log. -/
noncomputable def buy_option (b : ExtendedBroker) (name : String)
    (opt : OptionContract) (quantity : ℤ) : ExtendedBroker :=
  let premium_unit := black_scholes opt
  let total_cost := premium_unit * (quantity : ℝ)
  if total_cost ≤ b.cash then
    match b.option_positions.lookup name with
    | some existing_pos =>
      let new_quantity := existing_pos.quantity + quantity
      let avg_price := (existing_pos.entry_price * (existing_pos.quantity : ℝ)
          + premium_unit * (quantity : ℝ)) / (new_quantity : ℝ)
      { b with
          cash := b.cash - total_cost,
          option_positions := CommodityBrokerM.setPos b.option_positions name
            { existing_pos with quantity := new_quantity, entry_price := avg_price } }
    | none =>
      { b with
          cash := b.cash - total_cost,
          option_positions :=
            b.option_positions ++ [(name, ⟨name, opt, quantity, premium_unit⟩)] }
  else b

/-- `ExtendedBroker.sell_option(name, quantity, date)`: re-prices the
premium with the STORED position's `option.black_scholes()` (no
overrides), credits cash, decrements the quantity and deletes the
position at zero. -/
noncomputable def sell_option (b : ExtendedBroker) (name : String)
    (quantity : ℤ) : ExtendedBroker :=
  match b.option_positions.lookup name with
  | none => b
  | some existing_pos =>
    if existing_pos.quantity < quantity then b
    else
      let premium_unit := black_scholes existing_pos.opt
      { b with
          cash := b.cash + premium_unit * (quantity : ℝ),
          option_positions :=
            if existing_pos.quantity - quantity = 0 then
              CommodityBrokerM.delPos b.option_positions name
            else
              CommodityBrokerM.setPos b.option_positions name
                { existing_pos with quantity := existing_pos.quantity - quantity } }

/-- Modelled from the spec: `pybacktestchain.broker.Broker
.get_portfolio_value(market_prices)` (the `super()` call in
`new_broker.py`, from the external dependency): cash plus quantity ×
price over share positions with a quoted price. -/
noncomputable def base_get_portfolio_value (b : ExtendedBroker)
    (market_prices : List (String × ℝ)) : ℝ :=
  b.cash + (b.positions.map (fun kv =>
    match market_prices.lookup kv.1 with
    | some p => (kv.2 : ℝ) * p
    | none => 0)).sum

/-- The option component added by `ExtendedBroker.get_portfolio_value`:
each held option contributes `opt.black_scholes() * quantity`, with no
dependence on `market_prices`. -/
noncomputable def optionsValue (b : ExtendedBroker) : ℝ :=
  (b.option_positions.map (fun kv =>
    black_scholes kv.2.opt * (kv.2.quantity : ℝ))).sum

/-- `ExtendedBroker.get_portfolio_value(market_prices)`. -/
noncomputable def get_portfolio_value (b : ExtendedBroker)
    (market_prices : List (String × ℝ)) : ℝ :=
  base_get_portfolio_value b market_prices + optionsValue b

theorem buy_option_new (b : ExtendedBroker) (name : String)
    (opt : OptionContract) (q : ℤ)
    (h : black_scholes opt * (q : ℝ) ≤ b.cash)
    (hl : b.option_positions.lookup name = none) :
    buy_option b name opt q =
      { b with
          cash := b.cash - black_scholes opt * (q : ℝ),
          option_positions :=
            b.option_positions ++ [(name, ⟨name, opt, q, black_scholes opt⟩)] } := by
  unfold buy_option
  rw [if_pos h, hl]

theorem sell_option_full (b : ExtendedBroker) (name : String) (q : ℤ)
    (pos : OptionPosition) (hl : b.option_positions.lookup name = some pos)
    (hq : pos.quantity = q) :
    sell_option b name q =
      { b with
          cash := b.cash + black_scholes pos.opt * (q : ℝ),
          option_positions := CommodityBrokerM.delPos b.option_positions name } := by
  unfold sell_option
  rw [hl]
  dsimp only
  rw [if_neg (by omega), if_pos (by omega)]

/-- **C10 (confirmed).** `ExtendedBroker` prices every option exclusively
from the stored contract via `black_scholes()` with no overrides (the
`date` and `market_prices` arguments never reach the pricer):
buying `q` contracts of a fresh name and immediately selling the same `q`
restores the broker's state — in particular its cash — exactly; and
`get_portfolio_value` splits as the base (share) value, which alone
depends on `market_prices`, plus the option component
`Σ black_scholes(contract)·quantity`, which is the same for every
`market_prices` argument. -/
theorem extended_broker_option_round_trip :
    (∀ (b : ExtendedBroker) (name : String) (opt : OptionContract) (q : ℤ),
      b.option_positions.lookup name = none →
      black_scholes opt * (q : ℝ) ≤ b.cash →
      sell_option (buy_option b name opt q) name q = b) ∧
    (∀ (b : ExtendedBroker) (mp mp' : List (String × ℝ)),
      get_portfolio_value b mp - base_get_portfolio_value b mp
        = get_portfolio_value b mp' - base_get_portfolio_value b mp' ∧
      get_portfolio_value b mp - base_get_portfolio_value b mp
        = optionsValue b) := by
  constructor
  · intro b name opt q hl hcash
    rw [buy_option_new b name opt q hcash hl]
    set b1 : ExtendedBroker :=
      { b with
          cash := b.cash - black_scholes opt * (q : ℝ),
          option_positions :=
            b.option_positions ++ [(name, ⟨name, opt, q, black_scholes opt⟩)] }
      with hb1
    have hl1 : b1.option_positions.lookup name =
        some ⟨name, opt, q, black_scholes opt⟩ := by
      rw [hb1]
      show (b.option_positions ++ [(name, _)]).lookup name = _
      rw [CommodityBrokerM.lookup_append_single, hl]
      simp
    rw [sell_option_full b1 name q ⟨name, opt, q, black_scholes opt⟩ hl1 rfl]
    have hdel : CommodityBrokerM.delPos b1.option_positions name
        = b.option_positions := by
      rw [hb1]
      show CommodityBrokerM.delPos (b.option_positions ++ [(name, _)]) name = _
      unfold CommodityBrokerM.delPos
      rw [List.filter_append]
      have h2 : List.filter (fun kv => !(kv.1 == name))
          [(name, (⟨name, opt, q, black_scholes opt⟩ : OptionPosition))] = [] := by
        simp [List.filter]
      rw [h2, List.append_nil]
      exact CommodityBrokerM.delPos_of_lookup_none b.option_positions name hl
    rw [hdel]
    show ({ b with
        cash := b.cash - black_scholes opt * (q : ℝ) + black_scholes opt * (q : ℝ),
        option_positions := b.option_positions } : ExtendedBroker) = b
    have hcash2 : b.cash - black_scholes opt * (q : ℝ) + black_scholes opt * (q : ℝ)
        = b.cash := by ring
    rw [hcash2]
  · intro b mp mp'
    constructor
    · unfold get_portfolio_value
      ring
    · unfold get_portfolio_value
      ring

/-- An upper bound used to discharge the cash hypothesis at a concrete
contract: a call is never worth more than the discounted underlying. -/
theorem black_scholes_call_le (S K r q Td sigma : ℝ)
    (hS : 0 ≤ S) (hK : 0 ≤ K) :
    black_scholes ⟨OptType.Call, S, K, r, q, Td, sigma⟩
      ≤ S * Real.exp (-q * (Td / DAYS_IN_YEAR)) := by
  rw [black_scholes_call_eq]
  have h1 : 0 ≤ K * Real.exp (-r * (Td / DAYS_IN_YEAR))
      * normCdf (d2 S K (Td / DAYS_IN_YEAR) r q sigma) := by
    apply mul_nonneg
    · exact mul_nonneg hK (Real.exp_pos _).le
    · exact normCdf_nonneg _
  have h2 : S * Real.exp (-q * (Td / DAYS_IN_YEAR))
      * normCdf (d1 S K (Td / DAYS_IN_YEAR) r q sigma)
      ≤ S * Real.exp (-q * (Td / DAYS_IN_YEAR)) := by
    have hS' : 0 ≤ S * Real.exp (-q * (Td / DAYS_IN_YEAR)) :=
      mul_nonneg hS (Real.exp_pos _).le
    calc S * Real.exp (-q * (Td / DAYS_IN_YEAR))
        * normCdf (d1 S K (Td / DAYS_IN_YEAR) r q sigma)
        ≤ S * Real.exp (-q * (Td / DAYS_IN_YEAR)) * 1 :=
          mul_le_mul_of_nonneg_left (normCdf_le_one _) hS'
      _ = S * Real.exp (-q * (Td / DAYS_IN_YEAR)) := mul_one _
  linarith

/-- Witness for C10 at a concrete broker and contract: cash 10, a fresh
call on `S = K = 1`, `r = q = 0`, one year, `σ = 1`, one contract. -/
theorem extended_broker_option_round_trip_witness :
    sell_option (buy_option ⟨10, [], []⟩ "C1"
        ⟨OptType.Call, 1, 1, 0, 0, 365, 1⟩ 1) "C1" 1 = ⟨10, [], []⟩ ∧
    get_portfolio_value ⟨10, [], []⟩ [("A", 3)]
        - base_get_portfolio_value ⟨10, [], []⟩ [("A", 3)]
      = optionsValue ⟨10, [], []⟩ := by
  constructor
  · apply extended_broker_option_round_trip.1 ⟨10, [], []⟩ "C1"
      ⟨OptType.Call, 1, 1, 0, 0, 365, 1⟩ 1 rfl
    have hb := black_scholes_call_le 1 1 0 0 365 1 (by norm_num) (by norm_num)
    have he : (1 : ℝ) * Real.exp (-0 * ((365 : ℝ) / DAYS_IN_YEAR)) = 1 := by
      norm_num
    rw [he] at hb
    show black_scholes ⟨OptType.Call, 1, 1, 0, 0, 365, 1⟩ * ((1 : ℤ) : ℝ) ≤ 10
    push_cast
    linarith
  · exact (extended_broker_option_round_trip.2 ⟨10, [], []⟩ [("A", 3)] []).2

end OptionPricing
